import Mathlib

/-!
Verification of the incremental index lifecycle engine of `hygrep`
(`src/hygrep/semantic.py`), as a shallow embedding in Lean 4.

The external collaborators (content hashing, block extraction, embedding,
the vector store) are modelled as parameters / inert data, exactly as the
specification designates them out of scope:

* `hash : String → String` stands for `hashlib.sha256(content).hexdigest()[:16]`;
* `extract : String → String → Option (List Block)` stands for
  `ContextExtractor.extract` (`none` = the extractor raised);
* the vector store is an association list from block id to the stored
  metadata; `omendb`'s `delete` / `set` become `deleteIds` / `setKey`.

Everything else (`index`, `update`, `get_stale_files`, `needs_update`,
`_load_manifest`, the `search` result formatting) is translated line by
line from the source.
-/

set_option maxHeartbeats 1000000

namespace Hygrep

/-- A code block produced by extraction (`extractor.extract` output item). -/
structure Block where
  type : String
  name : String
  start_line : Nat
  end_line : Nat
  content : String
deriving DecidableEq, Repr

/-- Metadata stored alongside a vector in the store (`db.set` item `metadata`). -/
structure BlockMeta where
  file : String
  type : String
  name : String
  start_line : Nat
  end_line : Nat
  content : String
deriving DecidableEq, Repr

/-- A manifest file entry (v2 format): `{"hash": ..., "blocks": [...]}`. -/
structure FileEntry where
  hash : String
  blocks : List String
deriving DecidableEq, Repr

/-- The in-memory manifest: `{"files": {path: FileEntry}}` after migration. -/
structure Manifest where
  files : List (String × FileEntry)
deriving DecidableEq, Repr

/-- The vector store contents: block id ↦ stored metadata. -/
abbrev Store := List (String × BlockMeta)

/-- The stats dict returned by `index` / `update`. -/
structure Stats where
  files : Nat
  blocks : Nat
  skipped : Nat
  errors : Nat
  deleted : Nat
deriving DecidableEq, Repr

/-! ### Association-list primitives (Python `dict` / store operations) -/

/-- Python `d.get(k)` on a string-keyed mapping. -/
def lookupKey (k : String) : List (String × β) → Option β
  | [] => none
  | (k', v) :: rest => if k' = k then some v else lookupKey k rest

/-- Python `d[k] = v`: replace the binding if present, else append. -/
def setKey : List (String × β) → String → β → List (String × β)
  | [], k, v => [(k, v)]
  | (k', v') :: rest, k, v =>
      if k' = k then (k, v) :: rest else (k', v') :: setKey rest k v

/-- Python `d.pop(k, None)`. -/
def eraseKey (l : List (String × β)) (k : String) : List (String × β) :=
  l.filter (fun p => decide (p.1 ≠ k))

/-- `db.delete(ids)`: remove every vector whose id is in `ids`. -/
def deleteIds (s : Store) (ids : List String) : Store :=
  s.filter (fun it => decide (it.1 ∉ ids))

/-! ### Manifest loading and migration (`_load_manifest`) -/

/-- A raw manifest value for one path, as found on disk: either the legacy
v1 bare hash string or the v2 record. -/
inductive RawEntry where
  | v1 (hash : String)
  | v2 (hash : String) (blocks : List String)
deriving DecidableEq, Repr

/-- The on-disk manifest document: absent file, present but unparseable
(`json.loads` raises), or parsed into a path ↦ raw-entry mapping. -/
inductive ManifestDoc where
  | absent
  | corrupt
  | parsed (files : List (String × RawEntry))
deriving DecidableEq, Repr

/-- The v1 → v2 in-place migration performed by `_load_manifest`. -/
def migrateEntry : RawEntry → FileEntry
  | .v1 h => { hash := h, blocks := [] }
  | .v2 h bs => { hash := h, blocks := bs }

/-- `SemanticIndex._load_manifest`: if the manifest file exists, parse it
(`json.loads` — a parse failure propagates as an exception) and migrate v1
entries; otherwise return `{"files": {}}`. -/
def loadManifest : ManifestDoc → Except Unit Manifest
  | .absent => .ok ⟨[]⟩
  | .corrupt => .error ()
  | .parsed fs => .ok ⟨fs.map (fun pe => (pe.1, migrateEntry pe.2))⟩

/-! ### The indexing pipeline (`SemanticIndex.index`) -/

/-- `f"{file_path}:{block['start_line']}:{block['name']}"`. -/
def blockId (file : String) (b : Block) : String :=
  file ++ ":" ++ toString b.start_line ++ ":" ++ b.name

/-- `f"{block['type']} {block['name']}\n{block['content']}"`. -/
def deriveText (b : Block) : String :=
  b.type ++ " " ++ b.name ++ "\n" ++ b.content

/-- One staged entry of `all_blocks`. -/
structure Staged where
  id : String
  file : String
  file_hash : String
  block : Block
  text : String
deriving DecidableEq, Repr

/-- The metadata written for one staged block by the `db.set` loop. -/
def metaOf (s : Staged) : BlockMeta :=
  { file := s.file, type := s.block.type, name := s.block.name,
    start_line := s.block.start_line, end_line := s.block.end_line,
    content := s.block.content }

/-- The staged entries contributed by one successfully extracted file. -/
def stageFile (hash : String → String) (path content : String)
    (blocks : List Block) : List Staged :=
  blocks.map (fun b =>
    { id := blockId path b, file := path, file_hash := hash content,
      block := b, text := deriveText b })

/-- `manifest["files"].get(path, {}).get("hash")`. -/
def storedHash (manifest : Manifest) (path : String) : Option String :=
  (lookupKey path manifest.files).map FileEntry.hash

/-- `manifest["files"].get(path, {}).get("blocks", [])`. -/
def blocksOf (manifest : Manifest) (path : String) : List String :=
  ((lookupKey path manifest.files).map FileEntry.blocks).getD []

/-- Loop state of the per-file scan inside `index`. -/
structure P1 where
  store : Store
  stats : Stats
  allBlocks : List Staged
  toUpdate : List (String × FileEntry)
deriving DecidableEq, Repr

/-- One iteration of the `for file_path, content in files.items()` loop of
`index`: skip on hash match, delete stale vectors, extract, stage. -/
def processFile (hash : String → String)
    (extract : String → String → Option (List Block))
    (manifest : Manifest) (st : P1) (pc : String × String) : P1 :=
  let fileHash := hash pc.2
  if storedHash manifest pc.1 = some fileHash then
    { st with stats := { st.stats with skipped := st.stats.skipped + 1 } }
  else
    let oldBlocks := blocksOf manifest pc.1
    let st1 :=
      if oldBlocks = [] then st
      else { st with
              store := deleteIds st.store oldBlocks,
              stats := { st.stats with deleted := st.stats.deleted + oldBlocks.length } }
    match extract pc.1 pc.2 with
    | none => { st1 with stats := { st1.stats with errors := st1.stats.errors + 1 } }
    | some blocks =>
        let staged := stageFile hash pc.1 pc.2 blocks
        { st1 with
          allBlocks := st1.allBlocks ++ staged,
          toUpdate := setKey st1.toUpdate pc.1 ⟨fileHash, staged.map Staged.id⟩,
          stats := { st1.stats with files := st1.stats.files + 1 } }

/-- The `stats` dict initial value. -/
def initStats : Stats := ⟨0, 0, 0, 0, 0⟩

/-- The whole per-file scan of `index` ran over `files`. -/
def p1run (hash : String → String)
    (extract : String → String → Option (List Block))
    (manifest : Manifest) (store0 : Store)
    (files : List (String × String)) : P1 :=
  files.foldl (processFile hash extract manifest) ⟨store0, initStats, [], []⟩

/-- The batch embed-and-store phase: `db.set` upserts every staged block
(batching only groups consecutive upserts; the embedder is a collaborator). -/
def upsertStaged (s : Store) (l : List Staged) : Store :=
  l.foldl (fun acc b => setKey acc b.id (metaOf b)) s

/-- `for file_path, file_info in files_to_update.items(): manifest["files"][file_path] = file_info`. -/
def mergeUpdates (files : List (String × FileEntry))
    (upd : List (String × FileEntry)) : List (String × FileEntry) :=
  upd.foldl (fun acc pe => setKey acc pe.1 pe.2) files

/-- Result of an `index` / `update` call: the store contents, the on-disk
manifest after the call, the returned stats, and whether `_save_manifest`
ran. -/
structure IndexResult where
  store : Store
  manifest : Manifest
  stats : Stats
  saved : Bool
deriving DecidableEq, Repr

/-- `SemanticIndex.index(files)`, acting on the loaded manifest and the
store: scan all files, then (unless nothing was staged — in which case the
stats are returned *without saving the manifest*) embed/store everything
and persist the merged manifest. -/
def index (hash : String → String)
    (extract : String → String → Option (List Block))
    (store0 : Store) (manifest : Manifest)
    (files : List (String × String)) : IndexResult :=
  let st := p1run hash extract manifest store0 files
  if st.allBlocks = [] then
    { store := st.store, manifest := manifest, stats := st.stats, saved := false }
  else
    { store := upsertStaged st.store st.allBlocks,
      manifest := ⟨mergeUpdates manifest.files st.toUpdate⟩,
      stats := { st.stats with blocks := st.allBlocks.length },
      saved := true }

/-! ### Staleness detection (`get_stale_files`, `needs_update`) -/

/-- `SemanticIndex.get_stale_files(files)`: `changed` = input paths whose
hash differs from the stored hash (absent entry included), `deleted` =
manifest paths absent from the input. -/
def get_stale_files (hash : String → String) (manifest : Manifest)
    (files : List (String × String)) : List String × List String :=
  let changed := (files.filter (fun pc =>
      decide (¬ storedHash manifest pc.1 = some (hash pc.2)))).map Prod.fst
  let current := files.map Prod.fst
  let deleted := (manifest.files.map Prod.fst).filter (fun f => decide (f ∉ current))
  (changed, deleted)

/-- `SemanticIndex.needs_update(files)`. -/
def needs_update (hash : String → String) (manifest : Manifest)
    (files : List (String × String)) : Nat :=
  let cd := get_stale_files hash manifest files
  cd.1.length + cd.2.length

/-! ### Incremental update (`SemanticIndex.update`) -/

/-- One iteration of the deleted-files loop of `update`: delete the path's
recorded vectors, drop its manifest entry, accumulate the deletion count. -/
def deleteOne (acc : Store × List (String × FileEntry) × Nat) (f : String) :
    Store × List (String × FileEntry) × Nat :=
  let oldBlocks := ((lookupKey f acc.2.1).map FileEntry.blocks).getD []
  let store' := if oldBlocks = [] then acc.1 else deleteIds acc.1 oldBlocks
  (store', eraseKey acc.2.1 f, acc.2.2 + oldBlocks.length)

/-- `SemanticIndex.update(files)`: diff, early-return when nothing is
stale, process deletions (persisting the manifest once), then run `index`
restricted to the changed subset and merge the deletion count. -/
def update (hash : String → String)
    (extract : String → String → Option (List Block))
    (store0 : Store) (manifest : Manifest)
    (files : List (String × String)) : IndexResult :=
  let cd := get_stale_files hash manifest files
  if cd.1 = [] ∧ cd.2 = [] then
    { store := store0, manifest := manifest,
      stats := { files := 0, blocks := 0, skipped := files.length,
                 errors := 0, deleted := 0 },
      saved := false }
  else
    let delRes := cd.2.foldl deleteOne (store0, manifest.files, 0)
    let changedFiles := cd.1.filterMap (fun f =>
      (lookupKey f files).map (fun c => (f, c)))
    let res := index hash extract delRes.1 ⟨delRes.2.1⟩ changedFiles
    { res with stats := { res.stats with deleted := res.stats.deleted + delRes.2.2 } }

/-! ### Query-time score normalization (`SemanticIndex.search`) -/

/-- A raw result from `db.search`: `r.get("distance", 0)` and
`r.get("metadata", {})` both have defaults in the source. -/
structure RawResult where
  distance : Option ℚ
  metadata : Option BlockMeta
deriving DecidableEq, Repr

/-- One formatted search result. -/
structure SearchResult where
  file : String
  type : String
  name : String
  line : Nat
  end_line : Nat
  content : String
  score : ℚ
deriving DecidableEq, Repr

/-- The result-formatting loop body of `search`:
`score = (2.0 - r.get("distance", 0)) / 2.0`. -/
def formatResult (r : RawResult) : SearchResult :=
  { file := (r.metadata.map BlockMeta.file).getD ""
    type := (r.metadata.map BlockMeta.type).getD ""
    name := (r.metadata.map BlockMeta.name).getD ""
    line := (r.metadata.map BlockMeta.start_line).getD 0
    end_line := (r.metadata.map BlockMeta.end_line).getD 0
    content := (r.metadata.map BlockMeta.content).getD ""
    score := (2 - r.distance.getD 0) / 2 }

/-- The `output` list built by `search` from the raw store results. -/
def searchFormat (rs : List RawResult) : List SearchResult :=
  rs.map formatResult

/-! ### Derived notions used by the statements -/

/-- The ids of the vectors currently in the store that carry `p` as their
originating file (metadata `file` field). -/
def vectorsOf (s : Store) (p : String) : List String :=
  (s.filter (fun it => decide (it.2.file = p))).map Prod.fst

/-- The manifest/store consistency invariant of the specification: for
every path, the recorded block ids are exactly the ids present in the
store that originated from that path (paths without a manifest entry own
no vectors). -/
def storeManifestInv (s : Store) (m : Manifest) : Prop :=
  ∀ p x, x ∈ vectorsOf s p ↔ x ∈ blocksOf m p

/-- Per-file skip test of the `index` scan, as a Bool. -/
def skipF (hash : String → String) (manifest : Manifest)
    (pc : String × String) : Bool :=
  decide (storedHash manifest pc.1 = some (hash pc.2))

/-- Per-file extraction-error test of the `index` scan. -/
def errsF (hash : String → String)
    (extract : String → String → Option (List Block))
    (manifest : Manifest) (pc : String × String) : Bool :=
  !skipF hash manifest pc && (extract pc.1 pc.2).isNone

/-- Per-file success test of the `index` scan. -/
def succF (hash : String → String)
    (extract : String → String → Option (List Block))
    (manifest : Manifest) (pc : String × String) : Bool :=
  !skipF hash manifest pc && (extract pc.1 pc.2).isSome

/-- The ids deleted by the scan on behalf of one input file. -/
def delListOf (hash : String → String) (manifest : Manifest)
    (pc : String × String) : List String :=
  if skipF hash manifest pc then [] else blocksOf manifest pc.1

/-- The staged blocks contributed by one input file. -/
def stagedF (hash : String → String)
    (extract : String → String → Option (List Block))
    (manifest : Manifest) (pc : String × String) : List Staged :=
  if skipF hash manifest pc then []
  else match extract pc.1 pc.2 with
    | none => []
    | some bs => stageFile hash pc.1 pc.2 bs

/-- The pending manifest entry contributed by one input file. -/
def updF (hash : String → String)
    (extract : String → String → Option (List Block))
    (manifest : Manifest) (pc : String × String) : Option (String × FileEntry) :=
  if skipF hash manifest pc then none
  else match extract pc.1 pc.2 with
    | none => none
    | some bs => some (pc.1, ⟨hash pc.2, (stageFile hash pc.1 pc.2 bs).map Staged.id⟩)

/-- Freshness of the block ids derived during one `index` call: a newly
derived id never equals the id of a stored vector of a *different* file,
nor a newly derived id of a different input file. (The specification
assumes this — see its §3 and §9 on the block-id scheme.) -/
def freshIds (extract : String → String → Option (List Block))
    (store0 : Store) (files : List (String × String)) : Prop :=
  ∀ pc ∈ files, ∀ b ∈ (extract pc.1 pc.2).getD [],
    (∀ item ∈ store0, item.2.file ≠ pc.1 → item.1 ≠ blockId pc.1 b) ∧
    (∀ pc' ∈ files, pc'.1 ≠ pc.1 →
      ∀ b' ∈ (extract pc'.1 pc'.2).getD [], blockId pc.1 b ≠ blockId pc'.1 b')

/-- The staged block whose upsert wins for id `i` (the last one staged). -/
def findStaged (l : List Staged) (i : String) : Option Staged :=
  l.reverse.find? (fun st => decide (st.id = i))

/-- All blocks staged by one `index` call. -/
def allStagedOf (hash : String → String)
    (extract : String → String → Option (List Block))
    (manifest : Manifest) (files : List (String × String)) : List Staged :=
  files.flatMap (stagedF hash extract manifest)

/-- All vector ids deleted by the scan of one `index` call. -/
def allOldOf (hash : String → String) (manifest : Manifest)
    (files : List (String × String)) : List String :=
  files.flatMap (delListOf hash manifest)

/-- The pending manifest entries of one `index` call. -/
def updListOf (hash : String → String)
    (extract : String → String → Option (List Block))
    (manifest : Manifest) (files : List (String × String)) :
    List (String × FileEntry) :=
  files.filterMap (updF hash extract manifest)

/-- The stats accumulated by the scan loop of `index`. -/
def scanStats (hash : String → String)
    (extract : String → String → Option (List Block))
    (manifest : Manifest) (files : List (String × String)) : Stats :=
  { files := files.countP (succF hash extract manifest),
    blocks := 0,
    skipped := files.countP (skipF hash manifest),
    errors := files.countP (errsF hash extract manifest),
    deleted := (files.map (fun pc => (delListOf hash manifest pc).length)).sum }

instance freshIdsDecidable (extract : String → String → Option (List Block))
    (store0 : Store) (files : List (String × String)) :
    Decidable (freshIds extract store0 files) := by
  unfold freshIds
  infer_instance

/-! ### Concrete instances of the collaborator parameters, used to
evaluate the development on closed inputs -/

/-- A concrete content-hash function (any function works for the engine;
the source's sha256 prefix is a collaborator). -/
def idHash : String → String := fun s => s

/-- An extractor that always raises. -/
def extractNone : String → String → Option (List Block) := fun _ _ => none

/-- An extractor that always succeeds with zero blocks. -/
def extractEmpty : String → String → Option (List Block) := fun _ _ => some []

/-- A concrete block. -/
def blockF : Block :=
  { type := "function", name := "f", start_line := 1, end_line := 2,
    content := "def f: pass" }

/-- An extractor that always returns the single block `blockF`. -/
def extractOneF : String → String → Option (List Block) := fun _ _ => some [blockF]

/-- A concrete second block. -/
def blockG : Block :=
  { type := "function", name := "g", start_line := 5, end_line := 7,
    content := "def g: pass" }

/-- An extractor that returns `blockG` for every file. -/
def extractOneG : String → String → Option (List Block) := fun _ _ => some [blockG]

/-- The stored metadata of `blockF` for file `"a"`. -/
def metaFa : BlockMeta :=
  { file := "a", type := "function", name := "f", start_line := 1,
    end_line := 2, content := "def f: pass" }

/-- The stored metadata of `blockG` for file `"b"`. -/
def metaGb : BlockMeta :=
  { file := "b", type := "function", name := "g", start_line := 5,
    end_line := 7, content := "def g: pass" }

/-- An extractor that raises on file `"a"` and yields `blockG` elsewhere. -/
def extractFailA : String → String → Option (List Block) :=
  fun p _ => if p = "a" then none else some [blockG]

/-! ## Association-list lemmas -/

theorem lookupKey_setKey (l : List (String × β)) (k k' : String) (v : β) :
    lookupKey k (setKey l k' v) = if k' = k then some v else lookupKey k l := by
  induction l with
  | nil => by_cases h : k' = k <;> simp [setKey, lookupKey, h]
  | cons hd tl ih =>
    obtain ⟨a, b⟩ := hd
    by_cases hak : a = k'
    · subst hak
      by_cases h : a = k <;> simp [setKey, lookupKey, h]
    · by_cases h : a = k
      · subst h
        have : ¬ k' = a := fun hc => hak hc.symm
        simp [setKey, lookupKey, hak, this]
      · simp [setKey, lookupKey, hak, h, ih]

theorem lookupKey_eq_none (l : List (String × β)) (k : String) :
    lookupKey k l = none ↔ k ∉ l.map Prod.fst := by
  induction l with
  | nil => simp [lookupKey]
  | cons hd tl ih =>
    obtain ⟨a, b⟩ := hd
    by_cases h : a = k
    · subst h
      simp [lookupKey]
    · simp only [lookupKey, h, if_false, List.map_cons, List.mem_cons, not_or, ih]
      constructor
      · intro hk
        exact ⟨fun hc => h hc.symm, hk⟩
      · intro hk
        exact hk.2

theorem mem_of_lookupKey {l : List (String × β)} {k : String} {v : β}
    (h : lookupKey k l = some v) : (k, v) ∈ l := by
  induction l with
  | nil => simp [lookupKey] at h
  | cons hd tl ih =>
    obtain ⟨a, b⟩ := hd
    by_cases hak : a = k
    · subst hak
      simp [lookupKey] at h
      simp [h]
    · simp [lookupKey, hak] at h
      exact List.mem_cons_of_mem _ (ih h)

theorem lookupKey_of_mem {l : List (String × β)} {k : String} {v : β}
    (hnd : (l.map Prod.fst).Nodup) (h : (k, v) ∈ l) :
    lookupKey k l = some v := by
  induction l with
  | nil => simp at h
  | cons hd tl ih =>
    obtain ⟨a, b⟩ := hd
    simp only [List.map_cons, List.nodup_cons] at hnd
    rcases List.mem_cons.mp h with h1 | h1
    · obtain ⟨rfl, rfl⟩ := Prod.mk.injEq .. ▸ h1
      simp [lookupKey]
    · have hk : k ∈ tl.map Prod.fst := List.mem_map_of_mem Prod.fst h1
      have hak : a ≠ k := fun hc => hnd.1 (hc ▸ hk)
      simp [lookupKey, hak, ih hnd.2 h1]

theorem mem_iff_lookupKey {l : List (String × β)} {k : String} {v : β}
    (hnd : (l.map Prod.fst).Nodup) :
    (k, v) ∈ l ↔ lookupKey k l = some v :=
  ⟨lookupKey_of_mem hnd, mem_of_lookupKey⟩

theorem lookupKey_isSome_of_mem_keys {l : List (String × β)} {k : String}
    (h : k ∈ l.map Prod.fst) : ∃ v, lookupKey k l = some v := by
  cases hv : lookupKey k l with
  | none => exact absurd h ((lookupKey_eq_none l k).mp hv)
  | some v => exact ⟨v, rfl⟩

theorem keyUnique {l : List (String × β)} {k : String} {v v' : β}
    (hnd : (l.map Prod.fst).Nodup) (h : (k, v) ∈ l) (h' : (k, v') ∈ l) :
    v = v' := by
  have h1 := lookupKey_of_mem hnd h
  have h2 := lookupKey_of_mem hnd h'
  rw [h1] at h2
  exact Option.some.inj h2

theorem mem_keys_setKey (l : List (String × β)) (k a : String) (v : β) :
    a ∈ (setKey l k v).map Prod.fst ↔ a = k ∨ a ∈ l.map Prod.fst := by
  induction l with
  | nil => simp [setKey]
  | cons hd tl ih =>
    obtain ⟨b, c⟩ := hd
    by_cases hbk : b = k
    · rw [show setKey ((b, c) :: tl) k v = (k, v) :: tl from by simp [setKey, hbk]]
      rw [hbk]
      simp only [List.map_cons, List.mem_cons]
      tauto
    · simp only [setKey, hbk, if_false, List.map_cons, List.mem_cons, ih]
      tauto

theorem nodup_keys_setKey {l : List (String × β)} (k : String) (v : β)
    (hnd : (l.map Prod.fst).Nodup) : ((setKey l k v).map Prod.fst).Nodup := by
  induction l with
  | nil => simp [setKey]
  | cons hd tl ih =>
    obtain ⟨b, c⟩ := hd
    simp only [List.map_cons, List.nodup_cons] at hnd
    by_cases hbk : b = k
    · rw [show setKey ((b, c) :: tl) k v = (k, v) :: tl from by simp [setKey, hbk]]
      rw [List.map_cons, List.nodup_cons]
      exact ⟨hbk ▸ hnd.1, hnd.2⟩
    · simp only [setKey, hbk, if_false, List.map_cons, List.nodup_cons]
      refine ⟨fun hc => ?_, ih hnd.2⟩
      rcases (mem_keys_setKey tl k b v).mp hc with h1 | h1
      · exact hbk h1
      · exact hnd.1 h1

theorem setKey_eq_append {l : List (String × β)} {k : String} (v : β)
    (h : k ∉ l.map Prod.fst) : setKey l k v = l ++ [(k, v)] := by
  induction l with
  | nil => simp [setKey]
  | cons hd tl ih =>
    obtain ⟨b, c⟩ := hd
    simp only [List.map_cons, List.mem_cons, not_or] at h
    have : b ≠ k := fun hc => h.1 hc.symm
    simp [setKey, this, ih h.2]

theorem lookupKey_filterKeys (l : List (String × β)) (q : String → Bool) (k : String) :
    lookupKey k (l.filter (fun p => q p.1)) = if q k then lookupKey k l else none := by
  induction l with
  | nil => by_cases h : q k <;> simp [lookupKey, h]
  | cons hd tl ih =>
    obtain ⟨a, b⟩ := hd
    by_cases hak : a = k
    · subst hak
      by_cases h : q a <;> simp [List.filter_cons, h, lookupKey, ih]
    · by_cases h : q a <;> simp [List.filter_cons, h, lookupKey, hak, ih]

theorem lookupKey_eraseKey (l : List (String × β)) (k k' : String) :
    lookupKey k (eraseKey l k') = if k' = k then none else lookupKey k l := by
  have h := lookupKey_filterKeys l (fun x => decide (x ≠ k')) k
  simp only [eraseKey]
  rw [h]
  by_cases hk : k' = k
  · simp [hk]
  · have : k ≠ k' := fun hc => hk hc.symm
    simp [hk, this]

theorem keys_eraseKey_sublist (l : List (String × β)) (k : String) :
    List.Sublist ((eraseKey l k).map Prod.fst) (l.map Prod.fst) :=
  (List.filter_sublist l).map Prod.fst

theorem nodup_keys_eraseKey {l : List (String × β)} (k : String)
    (hnd : (l.map Prod.fst).Nodup) : ((eraseKey l k).map Prod.fst).Nodup :=
  hnd.sublist (keys_eraseKey_sublist l k)

/-! ## Store-operation lemmas -/

theorem lookupKey_deleteIds (s : Store) (ids : List String) (k : String) :
    lookupKey k (deleteIds s ids) = if k ∈ ids then none else lookupKey k s := by
  have h := lookupKey_filterKeys s (fun x => decide (x ∉ ids)) k
  simp only [deleteIds]
  rw [h]
  by_cases hk : k ∈ ids
  · simp [hk]
  · simp [hk]

theorem deleteIds_nil (s : Store) : deleteIds s [] = s := by
  simp [deleteIds]

theorem deleteIds_deleteIds (s : Store) (a b : List String) :
    deleteIds (deleteIds s a) b = deleteIds s (a ++ b) := by
  unfold deleteIds
  rw [List.filter_filter]
  apply List.filter_congr
  intro x _
  by_cases ha : x.1 ∈ a <;> by_cases hb : x.1 ∈ b <;>
    simp [ha, hb, List.mem_append]

theorem keys_deleteIds_sublist (s : Store) (ids : List String) :
    List.Sublist ((deleteIds s ids).map Prod.fst) (s.map Prod.fst) :=
  (List.filter_sublist s).map Prod.fst

theorem nodup_keys_deleteIds {s : Store} (ids : List String)
    (hnd : (s.map Prod.fst).Nodup) : ((deleteIds s ids).map Prod.fst).Nodup :=
  hnd.sublist (keys_deleteIds_sublist s ids)

theorem mem_deleteIds {s : Store} {ids : List String} {it : String × BlockMeta} :
    it ∈ deleteIds s ids ↔ it ∈ s ∧ it.1 ∉ ids := by
  simp [deleteIds, List.mem_filter]

/-! ## Characterization of one scan iteration -/

/-- `processFile` in compositional form: its effect on every component is
given by the per-file functions `skipF`, `errsF`, `succF`, `delListOf`,
`stagedF`, `updF`. -/
theorem processFile_eq (hash : String → String)
    (extract : String → String → Option (List Block))
    (manifest : Manifest) (st : P1) (pc : String × String) :
    processFile hash extract manifest st pc =
      { store := deleteIds st.store (delListOf hash manifest pc),
        stats := { files := st.stats.files +
                     (if succF hash extract manifest pc then 1 else 0),
                   blocks := st.stats.blocks,
                   skipped := st.stats.skipped +
                     (if skipF hash manifest pc then 1 else 0),
                   errors := st.stats.errors +
                     (if errsF hash extract manifest pc then 1 else 0),
                   deleted := st.stats.deleted +
                     (delListOf hash manifest pc).length },
        allBlocks := st.allBlocks ++ stagedF hash extract manifest pc,
        toUpdate := match updF hash extract manifest pc with
          | some pe => setKey st.toUpdate pe.1 pe.2
          | none => st.toUpdate } := by
  obtain ⟨s, ⟨f1, f2, f3, f4, f5⟩, ab, tu⟩ := st
  by_cases hs : storedHash manifest pc.1 = some (hash pc.2)
  · simp [processFile, skipF, errsF, succF, delListOf, stagedF, updF, hs, deleteIds_nil]
  · by_cases hob : blocksOf manifest pc.1 = []
    · cases hex : extract pc.1 pc.2 with
      | none =>
        simp [processFile, skipF, errsF, succF, delListOf, stagedF, updF,
              hs, hob, hex, deleteIds_nil]
      | some bs =>
        simp [processFile, skipF, errsF, succF, delListOf, stagedF, updF,
              hs, hob, hex, deleteIds_nil]
    · cases hex : extract pc.1 pc.2 with
      | none =>
        simp [processFile, skipF, errsF, succF, delListOf, stagedF, updF,
              hs, hob, hex]
      | some bs =>
        simp [processFile, skipF, errsF, succF, delListOf, stagedF, updF,
              hs, hob, hex]

theorem updF_key {hash : String → String}
    {extract : String → String → Option (List Block)}
    {manifest : Manifest} {pc : String × String} {pe : String × FileEntry}
    (h : updF hash extract manifest pc = some pe) : pe.1 = pc.1 := by
  unfold updF at h
  by_cases hs : skipF hash manifest pc
  · simp [hs] at h
  · cases hex : extract pc.1 pc.2 <;> simp [hs, hex] at h
    rw [← h]

/-- The whole per-file scan, in compositional form (every component except
`toUpdate`, which stays a fold). -/
theorem foldl_processFile_eq (hash : String → String)
    (extract : String → String → Option (List Block))
    (manifest : Manifest) (files : List (String × String)) :
    ∀ init : P1, files.foldl (processFile hash extract manifest) init =
      { store := deleteIds init.store (files.flatMap (delListOf hash manifest)),
        stats := { files := init.stats.files + files.countP (succF hash extract manifest),
                   blocks := init.stats.blocks,
                   skipped := init.stats.skipped + files.countP (skipF hash manifest),
                   errors := init.stats.errors + files.countP (errsF hash extract manifest),
                   deleted := init.stats.deleted +
                     (files.map (fun pc => (delListOf hash manifest pc).length)).sum },
        allBlocks := init.allBlocks ++ files.flatMap (stagedF hash extract manifest),
        toUpdate := files.foldl (fun acc pc =>
            match updF hash extract manifest pc with
            | some pe => setKey acc pe.1 pe.2
            | none => acc) init.toUpdate } := by
  induction files with
  | nil =>
    intro init
    obtain ⟨s, ⟨f1, f2, f3, f4, f5⟩, ab, tu⟩ := init
    simp [deleteIds_nil]
  | cons pc rest ih =>
    intro init
    rw [List.foldl_cons, processFile_eq, ih]
    obtain ⟨s, ⟨f1, f2, f3, f4, f5⟩, ab, tu⟩ := init
    simp only [P1.mk.injEq, Stats.mk.injEq, List.flatMap_cons, List.countP_cons,
               List.map_cons, List.sum_cons, List.foldl_cons]
    and_intros <;>
      first
        | trivial
        | rw [deleteIds_deleteIds]
        | rw [List.append_assoc]
        | ring

/-- The `toUpdate` fold is a `filterMap` when the input keys are distinct
(the Python input is a dict) and disjoint from the accumulator. -/
theorem toUpdate_fold_eq (hash : String → String)
    (extract : String → String → Option (List Block))
    (manifest : Manifest) (files : List (String × String)) :
    ∀ acc : List (String × FileEntry),
      (files.map Prod.fst).Nodup →
      (∀ q ∈ acc.map Prod.fst, q ∉ files.map Prod.fst) →
      files.foldl (fun acc pc =>
          match updF hash extract manifest pc with
          | some pe => setKey acc pe.1 pe.2
          | none => acc) acc
        = acc ++ files.filterMap (updF hash extract manifest) := by
  induction files with
  | nil =>
    intro acc _ _
    simp
  | cons pc rest ih =>
    intro acc hnd hdis
    simp only [List.map_cons, List.nodup_cons] at hnd
    rw [List.foldl_cons]
    cases hu : updF hash extract manifest pc with
    | none =>
      rw [ih acc hnd.2 (fun q hq hc => hdis q hq (List.mem_cons_of_mem _ hc))]
      simp [List.filterMap_cons, hu]
    | some pe =>
      have hpe : pe.1 = pc.1 := updF_key hu
      have hnotin : pe.1 ∉ acc.map Prod.fst := by
        intro hc
        exact hdis pe.1 hc (by rw [hpe]; exact List.mem_cons_self _ _)
      have hdis2 : ∀ q ∈ (acc ++ [(pe.1, pe.2)]).map Prod.fst, q ∉ rest.map Prod.fst := by
        intro q hq
        rw [List.map_append] at hq
        rcases List.mem_append.mp hq with h1 | h1
        · exact fun hc => hdis q h1 (List.mem_cons_of_mem _ hc)
        · simp only [List.map_cons, List.map_nil, List.mem_singleton] at h1
          subst h1
          rw [hpe]
          exact hnd.1
      simp only
      rw [setKey_eq_append _ hnotin, ih _ hnd.2 hdis2]
      simp [List.filterMap_cons, hu, List.append_assoc]

/-! ## Compositional descriptions of one `index` call -/

theorem p1run_eq (hash : String → String)
    (extract : String → String → Option (List Block))
    (manifest : Manifest) (store0 : Store) (files : List (String × String))
    (hnd : (files.map Prod.fst).Nodup) :
    p1run hash extract manifest store0 files =
      { store := deleteIds store0 (allOldOf hash manifest files),
        stats := { files := files.countP (succF hash extract manifest),
                   blocks := 0,
                   skipped := files.countP (skipF hash manifest),
                   errors := files.countP (errsF hash extract manifest),
                   deleted :=
                     (files.map (fun pc => (delListOf hash manifest pc).length)).sum },
        allBlocks := allStagedOf hash extract manifest files,
        toUpdate := updListOf hash extract manifest files } := by
  unfold p1run
  rw [foldl_processFile_eq]
  rw [toUpdate_fold_eq hash extract manifest files [] hnd (by simp)]
  simp [initStats, allStagedOf, allOldOf, updListOf]

/-! ## Lookup characterizations of the embed-store and manifest-merge phases -/

theorem findStaged_nil (i : String) : findStaged [] i = none := rfl

theorem findStaged_cons (b : Staged) (l : List Staged) (i : String) :
    findStaged (b :: l) i =
      (findStaged l i).or (if b.id = i then some b else none) := by
  unfold findStaged
  rw [List.reverse_cons, List.find?_append]
  by_cases h : b.id = i <;> simp [List.find?, h]

theorem findStaged_eq_none {l : List Staged} {i : String} :
    findStaged l i = none ↔ ∀ st ∈ l, st.id ≠ i := by
  unfold findStaged
  rw [List.find?_eq_none]
  constructor
  · intro h st hst
    have := h st (List.mem_reverse.mpr hst)
    simpa using this
  · intro h st hst
    simpa using h st (List.mem_reverse.mp hst)

theorem findStaged_some {l : List Staged} {i : String} {st : Staged}
    (h : findStaged l i = some st) : st ∈ l ∧ st.id = i := by
  unfold findStaged at h
  have h1 := List.mem_of_find?_eq_some h
  have h2 := List.find?_some h
  exact ⟨List.mem_reverse.mp h1, by simpa using h2⟩

theorem findStaged_isSome_of_mem {l : List Staged} {st : Staged} {i : String}
    (h : st ∈ l) (hid : st.id = i) : ∃ st', findStaged l i = some st' := by
  cases hf : findStaged l i with
  | some st' => exact ⟨st', rfl⟩
  | none => exact absurd hid (findStaged_eq_none.mp hf st h)

theorem lookupKey_upsertStaged (l : List Staged) :
    ∀ (s : Store) (i : String),
      lookupKey i (upsertStaged s l) =
        (match findStaged l i with
         | some st => some (metaOf st)
         | none => lookupKey i s) := by
  induction l with
  | nil =>
    intro s i
    simp [upsertStaged, findStaged_nil]
  | cons b tl ih =>
    intro s i
    show lookupKey i (upsertStaged (setKey s b.id (metaOf b)) tl) = _
    rw [ih, findStaged_cons]
    cases hf : findStaged tl i with
    | some st => simp [Option.or]
    | none =>
      by_cases h : b.id = i <;>
        simp [Option.or, h, lookupKey_setKey]

theorem nodup_keys_upsertStaged (l : List Staged) :
    ∀ s : Store, (s.map Prod.fst).Nodup →
      ((upsertStaged s l).map Prod.fst).Nodup := by
  induction l with
  | nil =>
    intro s hs
    exact hs
  | cons b tl ih =>
    intro s hs
    exact ih _ (nodup_keys_setKey _ _ hs)

theorem lookupKey_mergeUpdates (upd : List (String × FileEntry)) :
    ∀ (m : List (String × FileEntry)) (q : String),
      (upd.map Prod.fst).Nodup →
      lookupKey q (mergeUpdates m upd) =
        (match lookupKey q upd with
         | some v => some v
         | none => lookupKey q m) := by
  induction upd with
  | nil =>
    intro m q _
    simp [mergeUpdates, lookupKey]
  | cons pe tl ih =>
    intro m q hnd
    simp only [List.map_cons, List.nodup_cons] at hnd
    obtain ⟨k, v⟩ := pe
    show lookupKey q (mergeUpdates (setKey m k v) tl) = _
    rw [ih _ _ hnd.2]
    by_cases hk : k = q
    · subst hk
      have : lookupKey k tl = none :=
        (lookupKey_eq_none tl k).mpr hnd.1
      simp [this, lookupKey, lookupKey_setKey]
    · cases hf : lookupKey q tl with
      | some v' => simp [lookupKey, hk, hf]
      | none => simp [lookupKey, hk, hf, lookupKey_setKey]

theorem nodup_keys_mergeUpdates (upd : List (String × FileEntry)) :
    ∀ m : List (String × FileEntry), (m.map Prod.fst).Nodup →
      ((mergeUpdates m upd).map Prod.fst).Nodup := by
  induction upd with
  | nil =>
    intro m hm
    exact hm
  | cons pe tl ih =>
    intro m hm
    exact ih _ (nodup_keys_setKey _ _ hm)

theorem keys_updListOf_sublist (hash : String → String)
    (extract : String → String → Option (List Block))
    (manifest : Manifest) (files : List (String × String)) :
    List.Sublist ((updListOf hash extract manifest files).map Prod.fst)
      (files.map Prod.fst) := by
  induction files with
  | nil => simp [updListOf]
  | cons pc rest ih =>
    unfold updListOf at *
    rw [List.filterMap_cons]
    cases hu : updF hash extract manifest pc with
    | none =>
      exact ih.trans (List.sublist_cons_self _ _)
    | some pe =>
      rw [List.map_cons, updF_key hu, List.map_cons]
      exact ih.cons₂ pc.1

theorem nodup_keys_updListOf {hash : String → String}
    {extract : String → String → Option (List Block)}
    {manifest : Manifest} {files : List (String × String)}
    (hnd : (files.map Prod.fst).Nodup) :
    ((updListOf hash extract manifest files).map Prod.fst).Nodup :=
  hnd.sublist (keys_updListOf_sublist hash extract manifest files)

/-- Lookup into the pending-entries list at the key of an input file. -/
theorem lookupKey_updListOf {hash : String → String}
    {extract : String → String → Option (List Block)}
    {manifest : Manifest} {files : List (String × String)}
    (hnd : (files.map Prod.fst).Nodup) {pc : String × String} (hm : pc ∈ files) :
    lookupKey pc.1 (updListOf hash extract manifest files) =
      (updF hash extract manifest pc).map Prod.snd := by
  induction files with
  | nil => simp at hm
  | cons hd rest ih =>
    simp only [List.map_cons, List.nodup_cons] at hnd
    unfold updListOf at *
    rw [List.filterMap_cons]
    rcases List.mem_cons.mp hm with h1 | h1
    · subst h1
      cases hu : updF hash extract manifest pc with
      | none =>
        have hnotin : pc.1 ∉ (List.filterMap (updF hash extract manifest) rest).map Prod.fst :=
          fun hc => hnd.1 ((keys_updListOf_sublist hash extract manifest rest).subset hc)
        simp [(lookupKey_eq_none _ _).mpr hnotin]
      | some pe =>
        have hk := updF_key hu
        cases pe with
        | mk a b =>
          simp only at hk
          subst hk
          simp [lookupKey]
    · have hne : hd.1 ≠ pc.1 := by
        intro hc
        exact hnd.1 (hc ▸ List.mem_map_of_mem Prod.fst h1)
      cases hu : updF hash extract manifest hd with
      | none => exact ih hnd.2 h1
      | some pe =>
        have hk := updF_key hu
        rw [show lookupKey pc.1 (pe :: List.filterMap (updF hash extract manifest) rest)
              = lookupKey pc.1 (List.filterMap (updF hash extract manifest) rest) from by
            simp [lookupKey, hk ▸ hne]]
        exact ih hnd.2 h1

/-! ## `index` in compositional form -/

theorem index_eq (hash : String → String)
    (extract : String → String → Option (List Block))
    (store0 : Store) (manifest : Manifest) (files : List (String × String))
    (hnd : (files.map Prod.fst).Nodup) :
    index hash extract store0 manifest files =
      if allStagedOf hash extract manifest files = [] then
        { store := deleteIds store0 (allOldOf hash manifest files),
          manifest := manifest,
          stats := scanStats hash extract manifest files,
          saved := false }
      else
        { store := upsertStaged (deleteIds store0 (allOldOf hash manifest files))
            (allStagedOf hash extract manifest files),
          manifest := ⟨mergeUpdates manifest.files (updListOf hash extract manifest files)⟩,
          stats := { scanStats hash extract manifest files with
                      blocks := (allStagedOf hash extract manifest files).length },
          saved := true } := by
  unfold index
  rw [p1run_eq hash extract manifest store0 files hnd]
  by_cases h : allStagedOf hash extract manifest files = [] <;>
    simp [h, scanStats]

theorem index_stats_eq (hash : String → String)
    (extract : String → String → Option (List Block))
    (store0 : Store) (manifest : Manifest) (files : List (String × String))
    (hnd : (files.map Prod.fst).Nodup) :
    (index hash extract store0 manifest files).stats =
      { files := files.countP (succF hash extract manifest),
        blocks := (allStagedOf hash extract manifest files).length,
        skipped := files.countP (skipF hash manifest),
        errors := files.countP (errsF hash extract manifest),
        deleted := (files.map (fun pc => (delListOf hash manifest pc).length)).sum } := by
  rw [index_eq hash extract store0 manifest files hnd]
  by_cases h : allStagedOf hash extract manifest files = [] <;>
    simp [h, scanStats]

theorem index_saved_iff (hash : String → String)
    (extract : String → String → Option (List Block))
    (store0 : Store) (manifest : Manifest) (files : List (String × String))
    (hnd : (files.map Prod.fst).Nodup) :
    (index hash extract store0 manifest files).saved = true ↔
      allStagedOf hash extract manifest files ≠ [] := by
  rw [index_eq hash extract store0 manifest files hnd]
  by_cases h : allStagedOf hash extract manifest files = [] <;> simp [h]

theorem index_manifest_unsaved (hash : String → String)
    (extract : String → String → Option (List Block))
    (store0 : Store) (manifest : Manifest) (files : List (String × String))
    (hnd : (files.map Prod.fst).Nodup)
    (h : allStagedOf hash extract manifest files = []) :
    (index hash extract store0 manifest files).manifest = manifest := by
  rw [index_eq hash extract store0 manifest files hnd]
  simp [h]

theorem lookupKey_index_manifest (hash : String → String)
    (extract : String → String → Option (List Block))
    (store0 : Store) (manifest : Manifest) (files : List (String × String))
    (hnd : (files.map Prod.fst).Nodup)
    (h : allStagedOf hash extract manifest files ≠ []) (q : String) :
    lookupKey q (index hash extract store0 manifest files).manifest.files =
      (match lookupKey q (updListOf hash extract manifest files) with
       | some e => some e
       | none => lookupKey q manifest.files) := by
  rw [index_eq hash extract store0 manifest files hnd]
  simp only [h, if_false]
  exact lookupKey_mergeUpdates _ _ _ (nodup_keys_updListOf hnd)

theorem lookupKey_index_store (hash : String → String)
    (extract : String → String → Option (List Block))
    (store0 : Store) (manifest : Manifest) (files : List (String × String))
    (hnd : (files.map Prod.fst).Nodup) (i : String) :
    lookupKey i (index hash extract store0 manifest files).store =
      (match findStaged (allStagedOf hash extract manifest files) i with
       | some st => some (metaOf st)
       | none =>
           if i ∈ allOldOf hash manifest files then none
           else lookupKey i store0) := by
  rw [index_eq hash extract store0 manifest files hnd]
  by_cases h : allStagedOf hash extract manifest files = []
  · simp only [h, if_true, findStaged_nil]
    exact lookupKey_deleteIds store0 _ i
  · simp only [h, if_false]
    rw [lookupKey_upsertStaged]
    cases hf : findStaged (allStagedOf hash extract manifest files) i with
    | some st => rfl
    | none => exact lookupKey_deleteIds store0 _ i

theorem nodup_keys_index_store (hash : String → String)
    (extract : String → String → Option (List Block))
    (store0 : Store) (manifest : Manifest) (files : List (String × String))
    (hnd : (files.map Prod.fst).Nodup)
    (hs : (store0.map Prod.fst).Nodup) :
    ((index hash extract store0 manifest files).store.map Prod.fst).Nodup := by
  rw [index_eq hash extract store0 manifest files hnd]
  by_cases h : allStagedOf hash extract manifest files = []
  · simp only [h, if_true]
    exact nodup_keys_deleteIds _ hs
  · simp only [h, if_false]
    exact nodup_keys_upsertStaged _ _ (nodup_keys_deleteIds _ hs)

/-! ## Claim C5: staleness detection -/

/-- C5. `get_stale_files` returns `changed` = exactly the input paths
whose content hash differs from the manifest's stored hash (paths absent
from the manifest included), and `deleted` = exactly the manifest paths
absent from the input; `needs_update` returns `|changed| + |deleted|`. -/
theorem get_stale_files_spec (hash : String → String) (manifest : Manifest)
    (files : List (String × String)) :
    (∀ x, x ∈ (get_stale_files hash manifest files).1 ↔
        ∃ c, (x, c) ∈ files ∧ storedHash manifest x ≠ some (hash c)) ∧
    (∀ x, x ∈ (get_stale_files hash manifest files).2 ↔
        x ∈ manifest.files.map Prod.fst ∧ x ∉ files.map Prod.fst) ∧
    needs_update hash manifest files =
      (get_stale_files hash manifest files).1.length +
        (get_stale_files hash manifest files).2.length := by
  refine ⟨fun x => ?_, fun x => ?_, rfl⟩
  · simp only [get_stale_files, List.mem_map, List.mem_filter, decide_eq_true_iff]
    constructor
    · rintro ⟨⟨p, c⟩, ⟨hmem, hq⟩, rfl⟩
      exact ⟨c, hmem, hq⟩
    · rintro ⟨c, hmem, hq⟩
      exact ⟨(x, c), ⟨hmem, hq⟩, rfl⟩
  · simp [get_stale_files, List.mem_filter]

/-! ## Claim C6: manifest loading on absent / corrupt documents -/

/-- C6 counterexample. A corrupted (unparseable) manifest document does
*not* load as the empty manifest: `_load_manifest` only guards on file
existence, so the `json.loads` failure propagates to the caller. -/
theorem loadManifest_corrupt_raises :
    loadManifest ManifestDoc.corrupt = Except.error () ∧
    loadManifest ManifestDoc.corrupt ≠ Except.ok ⟨[]⟩ :=
  ⟨rfl, fun h => Except.noConfusion h⟩

/-- C6 amended. `_load_manifest` returns the empty manifest when no
manifest file exists; a corrupted / unparseable document instead raises
(the parse error propagates to the caller). -/
theorem loadManifest_amended :
    loadManifest ManifestDoc.absent = Except.ok ⟨[]⟩ ∧
    loadManifest ManifestDoc.corrupt = Except.error () :=
  ⟨rfl, rfl⟩

/-! ## Claim C9: legacy manifest migration -/

/-- C9. Loading a parsed manifest document maps every legacy bare-hash
(v1) entry to a record with the original hash and an empty block-id list,
and leaves every current-form (v2) entry unchanged. -/
theorem loadManifest_migration (fs : List (String × RawEntry)) :
    loadManifest (ManifestDoc.parsed fs) =
      Except.ok ⟨fs.map (fun pe => (pe.1, migrateEntry pe.2))⟩ ∧
    (∀ p h, (p, RawEntry.v1 h) ∈ fs →
      (p, FileEntry.mk h []) ∈ (fs.map (fun pe => (pe.1, migrateEntry pe.2)))) ∧
    (∀ p h bs, (p, RawEntry.v2 h bs) ∈ fs →
      (p, FileEntry.mk h bs) ∈ (fs.map (fun pe => (pe.1, migrateEntry pe.2)))) := by
  refine ⟨rfl, fun p h hm => ?_, fun p h bs hm => ?_⟩
  · exact List.mem_map_of_mem (fun pe => (pe.1, migrateEntry pe.2)) hm
  · exact List.mem_map_of_mem (fun pe => (pe.1, migrateEntry pe.2)) hm

/-- C9 witness: migration evaluated on a concrete two-entry document with
one legacy and one current entry. -/
theorem loadManifest_migration_witness :
    loadManifest (ManifestDoc.parsed
        [("a", RawEntry.v1 "h1"), ("b", RawEntry.v2 "h2" ["b:1:g"])]) =
      Except.ok ⟨[("a", ⟨"h1", []⟩), ("b", ⟨"h2", ["b:1:g"]⟩)]⟩ ∧
    ("a", FileEntry.mk "h1" []) ∈
      ([("a", RawEntry.v1 "h1"), ("b", RawEntry.v2 "h2" ["b:1:g"])].map
        (fun pe => (pe.1, migrateEntry pe.2))) :=
  ⟨(loadManifest_migration _).1,
   (loadManifest_migration _).2.1 "a" "h1" (by decide)⟩

/-! ## Claim C8: score transform -/

/-- C8. Every formatted search result's score equals `(2 - d) / 2` for its
raw distance `d`; `d = 0` gives score `1`, `d = 2` gives score `0`, and
any `d ∈ [0, 2]` gives a score in `[0, 1]`. -/
theorem search_score_spec :
    (∀ rs : List RawResult, (searchFormat rs).map SearchResult.score
        = rs.map (fun r => (2 - r.distance.getD 0) / 2)) ∧
    (∀ r : RawResult, (formatResult r).score = (2 - r.distance.getD 0) / 2) ∧
    (∀ r : RawResult, r.distance.getD 0 = 0 → (formatResult r).score = 1) ∧
    (∀ r : RawResult, r.distance.getD 0 = 2 → (formatResult r).score = 0) ∧
    (∀ r : RawResult, 0 ≤ r.distance.getD 0 → r.distance.getD 0 ≤ 2 →
        0 ≤ (formatResult r).score ∧ (formatResult r).score ≤ 1) := by
  refine ⟨fun rs => ?_, fun r => rfl, fun r h => ?_, fun r h => ?_,
          fun r h0 h2 => ⟨?_, ?_⟩⟩
  · simp [searchFormat, formatResult]
  · simp [formatResult, h]
  · simp [formatResult, h]
  · simp only [formatResult]
    exact div_nonneg (by linarith) (by norm_num)
  · simp only [formatResult]
    exact (div_le_one (by norm_num)).mpr (by linarith)

/-- C8 witness: the transform evaluated at distances 0, 2 and 1/2. -/
theorem search_score_spec_witness :
    (formatResult ⟨some 0, none⟩).score = 1 ∧
    (formatResult ⟨some 2, none⟩).score = 0 ∧
    0 ≤ (formatResult ⟨some (1/2), none⟩).score ∧
    (formatResult ⟨some (1/2), none⟩).score ≤ 1 :=
  ⟨search_score_spec.2.2.1 _ rfl,
   search_score_spec.2.2.2.1 _ rfl,
   (search_score_spec.2.2.2.2 _ (by norm_num) (by norm_num)).1,
   (search_score_spec.2.2.2.2 _ (by norm_num) (by norm_num)).2⟩

/-! ## Small per-file classification lemmas -/

theorem skipF_iff {hash : String → String} {manifest : Manifest}
    {pc : String × String} :
    skipF hash manifest pc = true ↔ storedHash manifest pc.1 = some (hash pc.2) := by
  simp [skipF]

theorem stagedF_of_skip {hash : String → String}
    {extract : String → String → Option (List Block)} {manifest : Manifest}
    {pc : String × String} (h : skipF hash manifest pc = true) :
    stagedF hash extract manifest pc = [] := by
  simp [stagedF, h]

theorem updF_of_skip {hash : String → String}
    {extract : String → String → Option (List Block)} {manifest : Manifest}
    {pc : String × String} (h : skipF hash manifest pc = true) :
    updF hash extract manifest pc = none := by
  simp [updF, h]

theorem updF_of_succ {hash : String → String}
    {extract : String → String → Option (List Block)} {manifest : Manifest}
    {pc : String × String} {bs : List Block}
    (hs : ¬ skipF hash manifest pc = true) (hex : extract pc.1 pc.2 = some bs) :
    updF hash extract manifest pc =
      some (pc.1, ⟨hash pc.2, (stageFile hash pc.1 pc.2 bs).map Staged.id⟩) := by
  simp [updF, hs, hex]

theorem stagedF_of_succ {hash : String → String}
    {extract : String → String → Option (List Block)} {manifest : Manifest}
    {pc : String × String} {bs : List Block}
    (hs : ¬ skipF hash manifest pc = true) (hex : extract pc.1 pc.2 = some bs) :
    stagedF hash extract manifest pc = stageFile hash pc.1 pc.2 bs := by
  simp [stagedF, hs, hex]

theorem delListOf_of_skip {hash : String → String} {manifest : Manifest}
    {pc : String × String} (h : skipF hash manifest pc = true) :
    delListOf hash manifest pc = [] := by
  simp [delListOf, h]

theorem delListOf_of_stale {hash : String → String} {manifest : Manifest}
    {pc : String × String} (h : ¬ skipF hash manifest pc = true) :
    delListOf hash manifest pc = blocksOf manifest pc.1 := by
  simp [delListOf, h]

/-- A scanned file that neither errors nor succeeds was skipped. -/
theorem skip_of_not_errs_not_succ {hash : String → String}
    {extract : String → String → Option (List Block)} {manifest : Manifest}
    {pc : String × String}
    (he : ¬ errsF hash extract manifest pc = true)
    (hs : ¬ succF hash extract manifest pc = true) :
    skipF hash manifest pc = true := by
  cases hskip : skipF hash manifest pc
  · cases hex : extract pc.1 pc.2 <;>
      simp [errsF, succF, hskip, hex] at he hs
  · rfl

/-- An errorless non-skipped file extracted successfully. -/
theorem succ_of_not_errs {hash : String → String}
    {extract : String → String → Option (List Block)} {manifest : Manifest}
    {pc : String × String}
    (he : ¬ errsF hash extract manifest pc = true)
    (hs : ¬ skipF hash manifest pc = true) :
    ∃ bs, extract pc.1 pc.2 = some bs := by
  cases hex : extract pc.1 pc.2 with
  | none => exact absurd (by simp [errsF, hex, hs]) he
  | some bs => exact ⟨bs, rfl⟩

/-! ## Claim C10: a call that stages nothing does not save the manifest -/

/-- C10. If every input file is either skipped, fails extraction, or
extracts zero blocks, `index` returns its stats without saving the
manifest; a successfully processed zero-block stale path is counted in
`stats.files` but its new hash is not recorded, so the staleness check
still reports it as changed afterwards. -/
theorem index_no_staged_no_save (hash : String → String)
    (extract : String → String → Option (List Block))
    (store0 : Store) (manifest : Manifest) (files : List (String × String))
    (hnd : (files.map Prod.fst).Nodup)
    (hstage : ∀ pc ∈ files, skipF hash manifest pc = true ∨
        extract pc.1 pc.2 = none ∨ extract pc.1 pc.2 = some [])
    {p c : String} (hm : (p, c) ∈ files)
    (hns : ¬ storedHash manifest p = some (hash c))
    (hz : extract p c = some []) :
    (index hash extract store0 manifest files).manifest = manifest ∧
    (index hash extract store0 manifest files).saved = false ∧
    0 < (index hash extract store0 manifest files).stats.files ∧
    p ∈ (get_stale_files hash
          (index hash extract store0 manifest files).manifest files).1 := by
  have hempty : allStagedOf hash extract manifest files = [] := by
    unfold allStagedOf
    rw [List.flatMap_eq_nil_iff]
    intro pc hpc
    rcases hstage pc hpc with h1 | h1 | h1
    · exact stagedF_of_skip h1
    · by_cases hs : skipF hash manifest pc = true <;> simp [stagedF, hs, h1]
    · by_cases hs : skipF hash manifest pc = true <;> simp [stagedF, hs, h1, stageFile]
  have hman := index_manifest_unsaved hash extract store0 manifest files hnd hempty
  have hskip : skipF hash manifest (p, c) = false := by
    cases h : skipF hash manifest (p, c)
    · rfl
    · exact absurd (skipF_iff.mp h) hns
  refine ⟨hman, ?_, ?_, ?_⟩
  · rw [index_eq hash extract store0 manifest files hnd]
    simp [hempty]
  · rw [index_stats_eq hash extract store0 manifest files hnd]
    show 0 < files.countP (succF hash extract manifest)
    rw [List.countP_pos_iff]
    exact ⟨(p, c), hm, by simp [succF, hskip, hz]⟩
  · rw [hman]
    exact ((get_stale_files_spec hash manifest files).1 p).mpr ⟨c, hm, hns⟩

/-- C10 witness: one stale file whose extraction returns zero blocks. -/
theorem index_no_staged_no_save_witness :
    (index idHash extractEmpty [] ⟨[]⟩ [("a", "c")]).manifest = ⟨[]⟩ ∧
    (index idHash extractEmpty [] ⟨[]⟩ [("a", "c")]).saved = false ∧
    0 < (index idHash extractEmpty [] ⟨[]⟩ [("a", "c")]).stats.files ∧
    "a" ∈ (get_stale_files idHash
        (index idHash extractEmpty [] ⟨[]⟩ [("a", "c")]).manifest
        [("a", "c")]).1 :=
  @index_no_staged_no_save idHash extractEmpty [] ⟨[]⟩ [("a", "c")]
    (by decide) (by decide) "a" "c" (by decide) (by decide) (by decide)

/-! ## Claim C2: idempotence of `index` -/

/-- C2 counterexample. Re-running `index` on an identical file set does
*not* always skip every file: a file whose extraction yields zero blocks
leaves `all_blocks` empty, so the first call returns early without saving
the manifest, and the second call re-processes the file instead of
skipping it (`skipped = 0 ≠ 1 = |files|`). -/
theorem index_idempotence_counterexample :
    (index idHash extractEmpty
        (index idHash extractEmpty [] ⟨[]⟩ [("a", "c")]).store
        (index idHash extractEmpty [] ⟨[]⟩ [("a", "c")]).manifest
        [("a", "c")]).stats.skipped
      ≠ ([("a", "c")] : List (String × String)).length := by
  decide

/-- C2 amended. If the first `index` call reports `errors = 0` and either
embedded at least one block or processed no stale file at all (so the
manifest it would have saved is already accurate), then a second `index`
call on the identical file set skips every file and embeds zero blocks. -/
theorem index_idempotent_amended (hash : String → String)
    (extract : String → String → Option (List Block))
    (store0 : Store) (manifest : Manifest) (files : List (String × String))
    (hndf : (files.map Prod.fst).Nodup)
    (herr : (index hash extract store0 manifest files).stats.errors = 0)
    (hsv : 0 < (index hash extract store0 manifest files).stats.blocks ∨
        (index hash extract store0 manifest files).stats.files = 0) :
    (index hash extract (index hash extract store0 manifest files).store
        (index hash extract store0 manifest files).manifest files).stats.skipped
      = files.length ∧
    (index hash extract (index hash extract store0 manifest files).store
        (index hash extract store0 manifest files).manifest files).stats.blocks
      = 0 := by
  have hstats := index_stats_eq hash extract store0 manifest files hndf
  have herr2 : files.countP (errsF hash extract manifest) = 0 := by
    rw [hstats] at herr
    exact herr
  have hallerr := List.countP_eq_zero.mp herr2
  have hskip2 : ∀ pc ∈ files,
      skipF hash (index hash extract store0 manifest files).manifest pc = true := by
    rcases hsv with hbl | hfi
    · have hne : allStagedOf hash extract manifest files ≠ [] := by
        intro hc
        rw [hstats] at hbl
        simp only [hc] at hbl
        exact absurd hbl (by simp)
      intro pc hpc
      rw [skipF_iff]
      show (lookupKey pc.1 (index hash extract store0 manifest files).manifest.files).map
          FileEntry.hash = some (hash pc.2)
      rw [lookupKey_index_manifest hash extract store0 manifest files hndf hne pc.1,
          lookupKey_updListOf hndf hpc]
      by_cases hs : skipF hash manifest pc = true
      · rw [updF_of_skip hs]
        exact skipF_iff.mp hs
      · obtain ⟨bs, hex⟩ := succ_of_not_errs (hallerr pc hpc) hs
        rw [updF_of_succ hs hex]
        rfl
    · have hsucc : files.countP (succF hash extract manifest) = 0 := by
        rw [hstats] at hfi
        exact hfi
      have hallsucc := List.countP_eq_zero.mp hsucc
      have hallskip : ∀ pc ∈ files, skipF hash manifest pc = true :=
        fun pc hpc => skip_of_not_errs_not_succ (hallerr pc hpc) (hallsucc pc hpc)
      have hempty : allStagedOf hash extract manifest files = [] := by
        unfold allStagedOf
        rw [List.flatMap_eq_nil_iff]
        exact fun pc hpc => stagedF_of_skip (hallskip pc hpc)
      rw [index_manifest_unsaved hash extract store0 manifest files hndf hempty]
      exact hallskip
  have hempty2 : allStagedOf hash extract
      (index hash extract store0 manifest files).manifest files = [] := by
    unfold allStagedOf
    rw [List.flatMap_eq_nil_iff]
    exact fun pc hpc => stagedF_of_skip (hskip2 pc hpc)
  rw [index_stats_eq hash extract _ _ files hndf]
  constructor
  · show files.countP (skipF hash _) = files.length
    exact List.countP_eq_length.mpr hskip2
  · show (allStagedOf hash extract _ files).length = 0
    rw [hempty2]
    rfl

/-- C2 witness for the amended idempotence: one file with one block,
indexed twice from an empty state. -/
theorem index_idempotent_amended_witness :
    (index idHash extractOneF
        (index idHash extractOneF [] ⟨[]⟩ [("a", "c")]).store
        (index idHash extractOneF [] ⟨[]⟩ [("a", "c")]).manifest
        [("a", "c")]).stats.skipped
      = ([("a", "c")] : List (String × String)).length ∧
    (index idHash extractOneF
        (index idHash extractOneF [] ⟨[]⟩ [("a", "c")]).store
        (index idHash extractOneF [] ⟨[]⟩ [("a", "c")]).manifest
        [("a", "c")]).stats.blocks = 0 :=
  index_idempotent_amended idHash extractOneF [] ⟨[]⟩ [("a", "c")]
    (by decide) (by decide) (Or.inl (by decide))

/-! ## Membership lemmas for the staged / deleted collections -/

theorem updF_of_err {hash : String → String}
    {extract : String → String → Option (List Block)} {manifest : Manifest}
    {pc : String × String} (hex : extract pc.1 pc.2 = none) :
    updF hash extract manifest pc = none := by
  by_cases hs : skipF hash manifest pc = true <;> simp [updF, hs, hex]

/-- Everything a staged block of one file satisfies. -/
theorem stagedF_mem_spec {hash : String → String}
    {extract : String → String → Option (List Block)} {manifest : Manifest}
    {pc : String × String} {st : Staged}
    (h : st ∈ stagedF hash extract manifest pc) :
    st.file = pc.1 ∧ st.block ∈ (extract pc.1 pc.2).getD [] ∧
      st.id = blockId pc.1 st.block ∧ skipF hash manifest pc = false := by
  by_cases hs : skipF hash manifest pc = true
  · rw [stagedF_of_skip hs] at h
    simp at h
  · cases hex : extract pc.1 pc.2 with
    | none =>
      rw [show stagedF hash extract manifest pc = [] from by simp [stagedF, hs, hex]] at h
      simp at h
    | some bs =>
      rw [stagedF_of_succ hs hex] at h
      unfold stageFile at h
      rw [List.mem_map] at h
      obtain ⟨b, hb, rfl⟩ := h
      refine ⟨rfl, ?_, rfl, by simpa using hs⟩
      simpa using hb

theorem mem_allStagedOf {hash : String → String}
    {extract : String → String → Option (List Block)} {manifest : Manifest}
    {files : List (String × String)} {st : Staged} :
    st ∈ allStagedOf hash extract manifest files ↔
      ∃ pc ∈ files, st ∈ stagedF hash extract manifest pc := by
  simp [allStagedOf, List.mem_flatMap]

theorem mem_allOldOf {hash : String → String} {manifest : Manifest}
    {files : List (String × String)} {x : String} :
    x ∈ allOldOf hash manifest files ↔
      ∃ pc ∈ files, x ∈ delListOf hash manifest pc := by
  simp [allOldOf, List.mem_flatMap]

/-! ## Claim C7: extraction failure is recovered per file -/

/-- C7. For a stale input file whose extraction raises: the call's
`errors` counter counts it (it is positive, and equals the number of
failing stale files), the remaining paths are still processed (`files`
still counts every successfully extracted stale path), the failing path's
manifest entry is left exactly as it was, and every vector id previously
recorded for that path has already been removed from the store by the
pre-delete step (fresh ids assumed not to collide with them). -/
theorem index_extraction_failure (hash : String → String)
    (extract : String → String → Option (List Block))
    (store0 : Store) (manifest : Manifest) (files : List (String × String))
    (hndf : (files.map Prod.fst).Nodup)
    (p c : String) (hm : (p, c) ∈ files)
    (hex : extract p c = none)
    (hns : ¬ storedHash manifest p = some (hash c))
    (hfresh : ∀ pc ∈ files, ∀ b ∈ (extract pc.1 pc.2).getD [],
        blockId pc.1 b ∉ blocksOf manifest p) :
    (index hash extract store0 manifest files).stats.errors
        = files.countP (errsF hash extract manifest) ∧
    0 < (index hash extract store0 manifest files).stats.errors ∧
    (index hash extract store0 manifest files).stats.files
        = files.countP (succF hash extract manifest) ∧
    lookupKey p (index hash extract store0 manifest files).manifest.files
        = lookupKey p manifest.files ∧
    (∀ x ∈ blocksOf manifest p,
        lookupKey x (index hash extract store0 manifest files).store = none) := by
  have hstats := index_stats_eq hash extract store0 manifest files hndf
  have hskip : skipF hash manifest (p, c) = false := by
    cases h : skipF hash manifest (p, c)
    · rfl
    · exact absurd (skipF_iff.mp h) hns
  refine ⟨by rw [hstats], ?_, by rw [hstats], ?_, ?_⟩
  · rw [hstats]
    show 0 < files.countP (errsF hash extract manifest)
    rw [List.countP_pos_iff]
    exact ⟨(p, c), hm, by simp [errsF, hskip, hex]⟩
  · by_cases hst : allStagedOf hash extract manifest files = []
    · rw [index_manifest_unsaved hash extract store0 manifest files hndf hst]
    · rw [lookupKey_index_manifest hash extract store0 manifest files hndf hst p]
      have : lookupKey p (updListOf hash extract manifest files)
          = (updF hash extract manifest (p, c)).map Prod.snd :=
        lookupKey_updListOf hndf hm
      rw [this, updF_of_err hex]
      rfl
  · intro x hx
    rw [lookupKey_index_store hash extract store0 manifest files hndf x]
    have hfind : findStaged (allStagedOf hash extract manifest files) x = none := by
      rw [findStaged_eq_none]
      intro st hst hc
      obtain ⟨pc, hpc, hstf⟩ := mem_allStagedOf.mp hst
      obtain ⟨_, hblk, hid, _⟩ := stagedF_mem_spec hstf
      exact hfresh pc hpc st.block hblk (hid ▸ hc ▸ hx)
    rw [hfind]
    have hold : x ∈ allOldOf hash manifest files :=
      mem_allOldOf.mpr ⟨(p, c), hm, by
        rw [delListOf_of_stale (by simp [hskip])]
        exact hx⟩
    simp [hold]

/-- C7 witness: two stale files, extraction raising on the first and
succeeding on the second; the first file's old vector is gone, its entry
untouched, and the second file is still processed. -/
theorem index_extraction_failure_witness :
    (index idHash extractFailA [("a:1:f", metaFa)] ⟨[("a", ⟨"h0", ["a:1:f"]⟩)]⟩
        [("a", "c1"), ("b", "c2")]).stats.errors
      = [("a", "c1"), ("b", "c2")].countP
          (errsF idHash extractFailA ⟨[("a", ⟨"h0", ["a:1:f"]⟩)]⟩) ∧
    0 < (index idHash extractFailA [("a:1:f", metaFa)] ⟨[("a", ⟨"h0", ["a:1:f"]⟩)]⟩
        [("a", "c1"), ("b", "c2")]).stats.errors ∧
    (index idHash extractFailA [("a:1:f", metaFa)] ⟨[("a", ⟨"h0", ["a:1:f"]⟩)]⟩
        [("a", "c1"), ("b", "c2")]).stats.files
      = [("a", "c1"), ("b", "c2")].countP
          (succF idHash extractFailA ⟨[("a", ⟨"h0", ["a:1:f"]⟩)]⟩) ∧
    lookupKey "a" (index idHash extractFailA [("a:1:f", metaFa)]
        ⟨[("a", ⟨"h0", ["a:1:f"]⟩)]⟩ [("a", "c1"), ("b", "c2")]).manifest.files
      = lookupKey "a" (Manifest.mk [("a", ⟨"h0", ["a:1:f"]⟩)]).files ∧
    (∀ x ∈ blocksOf ⟨[("a", ⟨"h0", ["a:1:f"]⟩)]⟩ "a",
        lookupKey x (index idHash extractFailA [("a:1:f", metaFa)]
          ⟨[("a", ⟨"h0", ["a:1:f"]⟩)]⟩ [("a", "c1"), ("b", "c2")]).store = none) :=
  index_extraction_failure idHash extractFailA [("a:1:f", metaFa)]
    ⟨[("a", ⟨"h0", ["a:1:f"]⟩)]⟩ [("a", "c1"), ("b", "c2")]
    (by decide) "a" "c1" (by decide) (by decide) (by decide) (by decide)

/-! ## The deleted-files loop of `update` -/

theorem deleteOne_fold_store (ds : List String) :
    ∀ (s : Store) (m : List (String × FileEntry)) (n : Nat), ds.Nodup →
      (ds.foldl deleteOne (s, m, n)).1 =
        deleteIds s (ds.flatMap
          (fun f => ((lookupKey f m).map FileEntry.blocks).getD [])) := by
  induction ds with
  | nil =>
    intro s m n _
    simp [deleteIds_nil]
  | cons d rest ih =>
    intro s m n hnd
    have hd : d ∉ rest := (List.nodup_cons.mp hnd).1
    have hrest := (List.nodup_cons.mp hnd).2
    rw [List.foldl_cons]
    have hstep : deleteOne (s, m, n) d =
        (if ((lookupKey d m).map FileEntry.blocks).getD [] = [] then s
         else deleteIds s (((lookupKey d m).map FileEntry.blocks).getD []),
         eraseKey m d,
         n + (((lookupKey d m).map FileEntry.blocks).getD []).length) := rfl
    rw [hstep, ih _ _ _ hrest]
    have hcong : rest.flatMap
        (fun f => ((lookupKey f (eraseKey m d)).map FileEntry.blocks).getD []) =
        rest.flatMap (fun f => ((lookupKey f m).map FileEntry.blocks).getD []) := by
      apply List.flatMap_congr
      intro f hf
      rw [lookupKey_eraseKey]
      rw [if_neg (show ¬ d = f from fun hc => hd (by rw [hc]; exact hf))]
    rw [hcong, List.flatMap_cons]
    by_cases hob : ((lookupKey d m).map FileEntry.blocks).getD [] = []
    · rw [if_pos hob, hob, List.nil_append]
    · rw [if_neg hob, deleteIds_deleteIds]

theorem deleteOne_fold_manifest (ds : List String) :
    ∀ (s : Store) (m : List (String × FileEntry)) (n : Nat) (q : String),
      lookupKey q (ds.foldl deleteOne (s, m, n)).2.1 =
        if q ∈ ds then none else lookupKey q m := by
  induction ds with
  | nil =>
    intro s m n q
    simp
  | cons d rest ih =>
    intro s m n q
    rw [List.foldl_cons]
    show lookupKey q (rest.foldl deleteOne (_, eraseKey m d, _)).2.1 = _
    rw [ih]
    by_cases hq : q ∈ rest
    · simp [hq, List.mem_cons]
    · rw [if_neg hq, lookupKey_eraseKey]
      by_cases hdq : d = q
      · subst hdq
        simp
      · rw [if_neg hdq, if_neg (show ¬ q ∈ d :: rest from by
          rw [List.mem_cons]
          rintro (hc | hc)
          · exact hdq hc.symm
          · exact hq hc)]

theorem deleteOne_fold_manifest_nodup (ds : List String) :
    ∀ (s : Store) (m : List (String × FileEntry)) (n : Nat),
      (m.map Prod.fst).Nodup →
      (((ds.foldl deleteOne (s, m, n)).2.1).map Prod.fst).Nodup := by
  induction ds with
  | nil =>
    intro s m n hm
    exact hm
  | cons d rest ih =>
    intro s m n hm
    rw [List.foldl_cons]
    exact ih _ _ _ (nodup_keys_eraseKey d hm)

/-! ## The changed-files sub-dict of `update` -/

theorem mem_changedFiles {files : List (String × String)} {l : List String}
    {pc : String × String}
    (h : pc ∈ l.filterMap (fun f => (lookupKey f files).map (fun c => (f, c)))) :
    pc ∈ files ∧ pc.1 ∈ l := by
  rw [List.mem_filterMap] at h
  obtain ⟨f, hf, heq⟩ := h
  cases hl : lookupKey f files with
  | none =>
    rw [hl] at heq
    simp at heq
  | some c =>
    rw [hl] at heq
    simp only [Option.map_some', Option.some.injEq] at heq
    rw [← heq]
    exact ⟨mem_of_lookupKey hl, hf⟩

theorem keys_changedFiles_sublist (files : List (String × String))
    (l : List String) :
    List.Sublist
      ((l.filterMap (fun f => (lookupKey f files).map (fun c => (f, c)))).map
        Prod.fst) l := by
  induction l with
  | nil => simp
  | cons f rest ih =>
    rw [List.filterMap_cons]
    cases hl : lookupKey f files with
    | none => exact ih.trans (List.sublist_cons_self _ _)
    | some c =>
      simp only [Option.map_some', List.map_cons]
      exact ih.cons₂ f

theorem nodup_keys_changed {hash : String → String} {manifest : Manifest}
    {files : List (String × String)}
    (hndf : (files.map Prod.fst).Nodup) :
    (get_stale_files hash manifest files).1.Nodup := by
  show ((files.filter _).map Prod.fst).Nodup
  exact hndf.sublist ((List.filter_sublist files).map Prod.fst)

theorem nodup_deleted {hash : String → String} {manifest : Manifest}
    {files : List (String × String)}
    (hndm : (manifest.files.map Prod.fst).Nodup) :
    (get_stale_files hash manifest files).2.Nodup := by
  show ((manifest.files.map Prod.fst).filter _).Nodup
  exact hndm.sublist (List.filter_sublist _)

/-! ## Claim C4: deletion reconciliation by `update` -/

/-- C4. For a manifest path `p` absent from the input of `update`: the
call removes every block id recorded for `p` from the vector store, drops
`p` from the persisted manifest, `p` is reported deleted by the staleness
check beforehand, and is neither changed nor deleted afterwards (fresh
block ids of re-indexed files assumed not to collide with `p`'s old
ids). -/
theorem update_deletion_reconciliation (hash : String → String)
    (extract : String → String → Option (List Block))
    (store0 : Store) (manifest : Manifest) (files : List (String × String))
    (hndm : (manifest.files.map Prod.fst).Nodup)
    (hndf : (files.map Prod.fst).Nodup)
    (p : String) (e : FileEntry) (hp : lookupKey p manifest.files = some e)
    (hnotin : p ∉ files.map Prod.fst)
    (hfresh : ∀ pc ∈ files, ∀ b ∈ (extract pc.1 pc.2).getD [],
        blockId pc.1 b ∉ e.blocks) :
    (∀ x ∈ e.blocks,
        lookupKey x (update hash extract store0 manifest files).store = none) ∧
    lookupKey p (update hash extract store0 manifest files).manifest.files = none ∧
    p ∈ (get_stale_files hash manifest files).2 ∧
    p ∉ (get_stale_files hash
          (update hash extract store0 manifest files).manifest files).1 ∧
    p ∉ (get_stale_files hash
          (update hash extract store0 manifest files).manifest files).2 := by
  have hpdel : p ∈ (get_stale_files hash manifest files).2 :=
    ((get_stale_files_spec hash manifest files).2.1 p).mpr
      ⟨List.mem_map_of_mem Prod.fst (mem_of_lookupKey hp), hnotin⟩
  have hcond : ¬ ((get_stale_files hash manifest files).1 = [] ∧
      (get_stale_files hash manifest files).2 = []) := by
    rintro ⟨-, h2⟩
    rw [h2] at hpdel
    exact absurd hpdel (List.not_mem_nil p)
  have hupd : update hash extract store0 manifest files =
      (let cd := get_stale_files hash manifest files
       let delRes := cd.2.foldl deleteOne (store0, manifest.files, 0)
       let changedFiles := cd.1.filterMap (fun f =>
         (lookupKey f files).map (fun c => (f, c)))
       let res := index hash extract delRes.1 ⟨delRes.2.1⟩ changedFiles
       { res with stats := { res.stats with
           deleted := res.stats.deleted + delRes.2.2 } }) := by
    unfold update
    rw [if_neg hcond]
  rw [hupd]
  set cd := get_stale_files hash manifest files with hcd
  set delRes := cd.2.foldl deleteOne (store0, manifest.files, 0) with hdelRes
  set changedFiles := cd.1.filterMap (fun f =>
    (lookupKey f files).map (fun c => (f, c))) with hchf
  have hndcf : (changedFiles.map Prod.fst).Nodup :=
    (nodup_keys_changed hndf).sublist (keys_changedFiles_sublist files cd.1)
  have hkeysub : ∀ pc ∈ changedFiles, pc ∈ files := by
    intro pc hpc
    exact (mem_changedFiles hpc).1
  have hman1 : ∀ q, lookupKey q delRes.2.1 =
      if q ∈ cd.2 then none else lookupKey q manifest.files := by
    intro q
    exact deleteOne_fold_manifest cd.2 store0 manifest.files 0 q
  have hfindnone : ∀ x ∈ e.blocks,
      findStaged (allStagedOf hash extract ⟨delRes.2.1⟩ changedFiles) x = none := by
    intro x hx
    rw [findStaged_eq_none]
    intro st hst hc
    obtain ⟨pc, hpc, hstf⟩ := mem_allStagedOf.mp hst
    obtain ⟨-, hblk, hid, -⟩ := stagedF_mem_spec hstf
    exact hfresh pc (hkeysub pc hpc) st.block hblk (hid ▸ hc ▸ hx)
  have hstore : ∀ x ∈ e.blocks,
      lookupKey x (index hash extract delRes.1 ⟨delRes.2.1⟩ changedFiles).store
        = none := by
    intro x hx
    rw [lookupKey_index_store hash extract delRes.1 ⟨delRes.2.1⟩ changedFiles
        hndcf x, hfindnone x hx]
    have hs1 : lookupKey x delRes.1 = none := by
      rw [hdelRes, deleteOne_fold_store cd.2 store0 manifest.files 0
            (nodup_deleted hndm)]
      rw [lookupKey_deleteIds]
      rw [if_pos (List.mem_flatMap.mpr ⟨p, hpdel, by rw [hp]; exact hx⟩)]
    by_cases hold : x ∈ allOldOf hash ⟨delRes.2.1⟩ changedFiles
    · rw [if_pos hold]
    · rw [if_neg hold]
      exact hs1
  have hpkeys : ∀ q, q ∈ changedFiles.map Prod.fst → q ∈ files.map Prod.fst := by
    intro q hq
    rw [List.mem_map] at hq
    obtain ⟨pc, hpc, rfl⟩ := hq
    exact List.mem_map_of_mem Prod.fst (hkeysub pc hpc)
  have hmanifest : lookupKey p
      (index hash extract delRes.1 ⟨delRes.2.1⟩ changedFiles).manifest.files
        = none := by
    by_cases hst : allStagedOf hash extract ⟨delRes.2.1⟩ changedFiles = []
    · rw [index_manifest_unsaved hash extract delRes.1 ⟨delRes.2.1⟩ changedFiles
          hndcf hst]
      show lookupKey p delRes.2.1 = none
      rw [hman1 p, if_pos hpdel]
    · rw [lookupKey_index_manifest hash extract delRes.1 ⟨delRes.2.1⟩
          changedFiles hndcf hst p]
      have hupdnone : lookupKey p
          (updListOf hash extract ⟨delRes.2.1⟩ changedFiles) = none := by
        rw [lookupKey_eq_none]
        intro hc
        exact hnotin (hpkeys p
          ((keys_updListOf_sublist hash extract ⟨delRes.2.1⟩ changedFiles).subset hc))
      rw [hupdnone]
      show lookupKey p delRes.2.1 = none
      rw [hman1 p, if_pos hpdel]
  refine ⟨hstore, hmanifest, hpdel, ?_, ?_⟩
  · intro hc
    obtain ⟨c, hmem, -⟩ :=
      ((get_stale_files_spec hash _ files).1 p).mp hc
    exact hnotin (List.mem_map_of_mem Prod.fst hmem)
  · intro hc
    obtain ⟨hkeys, -⟩ :=
      ((get_stale_files_spec hash _ files).2.1 p).mp hc
    exact absurd hmanifest (by
      rw [lookupKey_eq_none]
      simpa using hkeys)

/-- C4 witness: one indexed file `"a"` removed from the input while a new
file `"b"` is indexed. -/
theorem update_deletion_reconciliation_witness :
    (∀ x ∈ (FileEntry.mk "h0" ["a:1:f"]).blocks,
        lookupKey x (update idHash extractOneG [("a:1:f", metaFa)]
          ⟨[("a", ⟨"h0", ["a:1:f"]⟩)]⟩ [("b", "c2")]).store = none) ∧
    lookupKey "a" (update idHash extractOneG [("a:1:f", metaFa)]
        ⟨[("a", ⟨"h0", ["a:1:f"]⟩)]⟩ [("b", "c2")]).manifest.files = none ∧
    "a" ∈ (get_stale_files idHash ⟨[("a", ⟨"h0", ["a:1:f"]⟩)]⟩ [("b", "c2")]).2 ∧
    "a" ∉ (get_stale_files idHash
        (update idHash extractOneG [("a:1:f", metaFa)]
          ⟨[("a", ⟨"h0", ["a:1:f"]⟩)]⟩ [("b", "c2")]).manifest [("b", "c2")]).1 ∧
    "a" ∉ (get_stale_files idHash
        (update idHash extractOneG [("a:1:f", metaFa)]
          ⟨[("a", ⟨"h0", ["a:1:f"]⟩)]⟩ [("b", "c2")]).manifest [("b", "c2")]).2 :=
  update_deletion_reconciliation idHash extractOneG [("a:1:f", metaFa)]
    ⟨[("a", ⟨"h0", ["a:1:f"]⟩)]⟩ [("b", "c2")] (by decide) (by decide)
    "a" ⟨"h0", ["a:1:f"]⟩ (by decide) (by decide) (by decide)

/-! ## Single-contributor lemmas (used when only one file is stale) -/

theorem flatMap_single {γ : Type} (l : List (String × String))
    (f : String × String → List γ)
    (hnd : (l.map Prod.fst).Nodup) {p c : String} (hm : (p, c) ∈ l)
    (hz : ∀ pc ∈ l, pc ≠ (p, c) → f pc = []) :
    l.flatMap f = f (p, c) := by
  induction l with
  | nil => simp at hm
  | cons hd tl ih =>
    simp only [List.map_cons, List.nodup_cons] at hnd
    rw [List.flatMap_cons]
    rcases List.mem_cons.mp hm with h1 | h1
    · subst h1
      have htl : tl.flatMap f = [] := by
        rw [List.flatMap_eq_nil_iff]
        intro pc hpc
        refine hz pc (List.mem_cons_of_mem _ hpc) (fun hc => ?_)
        subst hc
        exact hnd.1 (List.mem_map_of_mem Prod.fst hpc)
      rw [htl, List.append_nil]
    · have hhd : f hd = [] := by
        refine hz hd (List.mem_cons_self _ _) (fun hc => ?_)
        subst hc
        exact hnd.1 (List.mem_map_of_mem Prod.fst h1)
      rw [hhd, List.nil_append]
      exact ih hnd.2 h1 (fun pc hpc => hz pc (List.mem_cons_of_mem _ hpc))

theorem mem_vectorsOf_iff {s : Store} (hs : (s.map Prod.fst).Nodup)
    {x p : String} :
    x ∈ vectorsOf s p ↔ ∃ m, lookupKey x s = some m ∧ m.file = p := by
  unfold vectorsOf
  rw [List.mem_map]
  constructor
  · rintro ⟨⟨i, m⟩, hmem, rfl⟩
    rw [List.mem_filter] at hmem
    exact ⟨m, lookupKey_of_mem hs hmem.1, by simpa using hmem.2⟩
  · rintro ⟨m, hl, hf⟩
    exact ⟨(x, m), List.mem_filter.mpr ⟨mem_of_lookupKey hl, by simpa using hf⟩, rfl⟩

theorem mem_stageFile {hash : String → String} {pth cnt : String}
    {bs : List Block} {st : Staged} :
    st ∈ stageFile hash pth cnt bs ↔
      ∃ b ∈ bs, st = ⟨blockId pth b, pth, hash cnt, b, deriveText b⟩ := by
  unfold stageFile
  rw [List.mem_map]
  constructor
  · rintro ⟨b, hb, rfl⟩
    exact ⟨b, hb, rfl⟩
  · rintro ⟨b, hb, rfl⟩
    exact ⟨b, hb, rfl⟩

/-! ## Claim C3: change propagation for a single modified file -/

/-- C3. When exactly one previously indexed file has changed (its stored
hash no longer matches) and `index` is re-run over the whole set: the
`deleted` counter equals the number of ids previously recorded for that
file, all of those ids are removed from the store before the embed phase,
every newly derived id is inserted with the file as origin, the manifest
entry is replaced by the new hash and id list, and the stored vector of
every other file is exactly as before (given the state consistency for
the changed file and the spec's id-freshness assumption). -/
theorem index_change_propagation (hash : String → String)
    (extract : String → String → Option (List Block))
    (store0 : Store) (manifest : Manifest) (files : List (String × String))
    (hwfs : (store0.map Prod.fst).Nodup)
    (hndf : (files.map Prod.fst).Nodup)
    (p c : String) (e : FileEntry)
    (hm : (p, c) ∈ files)
    (hp : lookupKey p manifest.files = some e)
    (hchg : e.hash ≠ hash c)
    (hothers : ∀ pc ∈ files, pc ≠ (p, c) → skipF hash manifest pc = true)
    (bs : List Block) (hex : extract p c = some bs) (hbs : bs ≠ [])
    (hInvP : ∀ x, x ∈ vectorsOf store0 p ↔ x ∈ e.blocks)
    (hfresh : ∀ b ∈ bs, ∀ item ∈ store0,
        item.2.file ≠ p → item.1 ≠ blockId p b) :
    (index hash extract store0 manifest files).stats.deleted = e.blocks.length ∧
    (∀ x ∈ e.blocks,
        lookupKey x (p1run hash extract manifest store0 files).store = none) ∧
    (∀ b ∈ bs, ∃ m, lookupKey (blockId p b)
        (index hash extract store0 manifest files).store = some m ∧ m.file = p) ∧
    lookupKey p (index hash extract store0 manifest files).manifest.files =
      some ⟨hash c, (stageFile hash p c bs).map Staged.id⟩ ∧
    (∀ i m, m.file ≠ p →
      (lookupKey i (index hash extract store0 manifest files).store = some m ↔
        lookupKey i store0 = some m)) := by
  have hskipP : ¬ skipF hash manifest (p, c) = true := by
    rw [skipF_iff]
    show ¬ storedHash manifest p = some (hash c)
    unfold storedHash
    rw [hp]
    simpa using fun hc => hchg hc
  have hall : allStagedOf hash extract manifest files = stageFile hash p c bs := by
    unfold allStagedOf
    rw [flatMap_single files _ hndf hm
        (fun pc hpc hne => stagedF_of_skip (hothers pc hpc hne))]
    exact stagedF_of_succ hskipP hex
  have hold : allOldOf hash manifest files = e.blocks := by
    unfold allOldOf
    rw [flatMap_single files _ hndf hm
        (fun pc hpc hne => delListOf_of_skip (hothers pc hpc hne))]
    rw [delListOf_of_stale hskipP]
    show blocksOf manifest p = e.blocks
    unfold blocksOf
    rw [hp]
    rfl
  have hstagedne : allStagedOf hash extract manifest files ≠ [] := by
    rw [hall]
    unfold stageFile
    simp [List.map_eq_nil_iff, hbs]
  refine ⟨?_, ?_, ?_, ?_, ?_⟩
  · rw [index_stats_eq hash extract store0 manifest files hndf]
    show (files.map (fun pc => (delListOf hash manifest pc).length)).sum
        = e.blocks.length
    have h1 : (files.flatMap (delListOf hash manifest)).length
        = (files.map (fun pc => (delListOf hash manifest pc).length)).sum := by
      rw [List.length_flatMap]
      rfl
    rw [← h1]
    show (allOldOf hash manifest files).length = e.blocks.length
    rw [hold]
  · intro x hx
    rw [p1run_eq hash extract manifest store0 files hndf]
    show lookupKey x (deleteIds store0 (allOldOf hash manifest files)) = none
    rw [lookupKey_deleteIds, if_pos (hold ▸ hx)]
  · intro b hb
    rw [lookupKey_index_store hash extract store0 manifest files hndf]
    have hmem : (⟨blockId p b, p, hash c, b, deriveText b⟩ : Staged)
        ∈ allStagedOf hash extract manifest files := by
      rw [hall, mem_stageFile]
      exact ⟨b, hb, rfl⟩
    obtain ⟨st', hst'⟩ := findStaged_isSome_of_mem hmem rfl
    obtain ⟨hst'mem, hst'id⟩ := findStaged_some hst'
    rw [hall, mem_stageFile] at hst'mem
    obtain ⟨b', hb', rfl⟩ := hst'mem
    rw [hst']
    exact ⟨_, rfl, rfl⟩
  · rw [lookupKey_index_manifest hash extract store0 manifest files hndf
        hstagedne p]
    have : lookupKey p (updListOf hash extract manifest files)
        = (updF hash extract manifest (p, c)).map Prod.snd :=
      lookupKey_updListOf hndf hm
    rw [this, updF_of_succ hskipP hex]
    rfl
  · intro i m hmf
    rw [lookupKey_index_store hash extract store0 manifest files hndf]
    cases hf : findStaged (allStagedOf hash extract manifest files) i with
    | some st =>
      obtain ⟨hstmem, hstid⟩ := findStaged_some hf
      rw [hall, mem_stageFile] at hstmem
      obtain ⟨b, hb, rfl⟩ := hstmem
      constructor
      · intro hc
        obtain rfl : metaOf ⟨blockId p b, p, hash c, b, deriveText b⟩ = m :=
          Option.some.inj hc
        exact absurd rfl hmf
      · intro hc
        exact absurd hstid (hfresh b hb (i, m) (mem_of_lookupKey hc) hmf).symm
    | none =>
      by_cases hio : i ∈ allOldOf hash manifest files
      · rw [if_pos hio]
        constructor
        · intro hc
          exact absurd hc (by simp)
        · intro hc
          exfalso
          have hiv : i ∈ vectorsOf store0 p := (hInvP i).mpr (hold ▸ hio)
          obtain ⟨m', hl', hf'⟩ := (mem_vectorsOf_iff hwfs).mp hiv
          rw [hc] at hl'
          have hmm : m = m' := Option.some.inj hl'
          rw [← hmm] at hf'
          exact hmf hf'
      · rw [if_neg hio]

/-- C3 witness: file `"a"` changed (one block re-derived), file `"b"`
unchanged; `"b"`'s vector survives untouched and `"a"`'s old id count is
reported deleted. -/
theorem index_change_propagation_witness :
    (index idHash extractOneF
        [("a:1:f", metaFa), ("b:5:g", metaGb)]
        ⟨[("a", ⟨"h0", ["a:1:f"]⟩), ("b", ⟨"c2", ["b:5:g"]⟩)]⟩
        [("a", "c1"), ("b", "c2")]).stats.deleted
      = (FileEntry.mk "h0" ["a:1:f"]).blocks.length ∧
    lookupKey "a:1:f" (p1run idHash extractOneF
        ⟨[("a", ⟨"h0", ["a:1:f"]⟩), ("b", ⟨"c2", ["b:5:g"]⟩)]⟩
        [("a:1:f", metaFa), ("b:5:g", metaGb)]
        [("a", "c1"), ("b", "c2")]).store = none ∧
    lookupKey "a" (index idHash extractOneF
        [("a:1:f", metaFa), ("b:5:g", metaGb)]
        ⟨[("a", ⟨"h0", ["a:1:f"]⟩), ("b", ⟨"c2", ["b:5:g"]⟩)]⟩
        [("a", "c1"), ("b", "c2")]).manifest.files
      = some ⟨idHash "c1", (stageFile idHash "a" "c1" [blockF]).map Staged.id⟩ ∧
    (lookupKey "b:5:g" (index idHash extractOneF
        [("a:1:f", metaFa), ("b:5:g", metaGb)]
        ⟨[("a", ⟨"h0", ["a:1:f"]⟩), ("b", ⟨"c2", ["b:5:g"]⟩)]⟩
        [("a", "c1"), ("b", "c2")]).store = some metaGb ↔
      lookupKey "b:5:g" [("a:1:f", metaFa), ("b:5:g", metaGb)] = some metaGb) := by
  have h := index_change_propagation idHash extractOneF
    [("a:1:f", metaFa), ("b:5:g", metaGb)]
    ⟨[("a", ⟨"h0", ["a:1:f"]⟩), ("b", ⟨"c2", ["b:5:g"]⟩)]⟩
    [("a", "c1"), ("b", "c2")] (by decide) (by decide)
    "a" "c1" ⟨"h0", ["a:1:f"]⟩ (by decide) (by decide) (by decide)
    (by decide) [blockF] (by decide) (by decide)
    (fun x => Iff.rfl) (by decide)
  exact ⟨h.1, h.2.1 "a:1:f" (by decide), h.2.2.2.1,
    h.2.2.2.2 "b:5:g" metaGb (by decide)⟩

/-! ## The manifest/store invariant: preservation lemmas -/

theorem mem_updListOf {hash : String → String}
    {extract : String → String → Option (List Block)} {manifest : Manifest}
    {files : List (String × String)} {q : String} {v : FileEntry} :
    (q, v) ∈ updListOf hash extract manifest files ↔
      ∃ pc ∈ files, updF hash extract manifest pc = some (q, v) := by
  simp [updListOf, List.mem_filterMap]

theorem vectors_disjoint {store0 : Store}
    (hwfs : (store0.map Prod.fst).Nodup) {q1 q2 x : String}
    (h1 : x ∈ vectorsOf store0 q1) (h2 : x ∈ vectorsOf store0 q2) : q1 = q2 := by
  obtain ⟨m1, hl1, hf1⟩ := (mem_vectorsOf_iff hwfs).mp h1
  obtain ⟨m2, hl2, hf2⟩ := (mem_vectorsOf_iff hwfs).mp h2
  rw [hl1] at hl2
  rw [← hf1, ← hf2, Option.some.inj hl2]

theorem pair_unique {γ : Type} {l : List (String × γ)}
    (hnd : (l.map Prod.fst).Nodup) {pc pc' : String × γ}
    (h : pc ∈ l) (h' : pc' ∈ l) (hk : pc.1 = pc'.1) : pc = pc' := by
  obtain ⟨a, b⟩ := pc
  obtain ⟨a', b'⟩ := pc'
  simp only at hk
  subst hk
  rw [keyUnique hnd h h']

/-- Preservation of the manifest/store consistency invariant by one
errorless `index` call that either saved the manifest or had nothing to
do. -/
theorem index_preserves_inv (hash : String → String)
    (extract : String → String → Option (List Block))
    (store0 : Store) (manifest : Manifest) (files : List (String × String))
    (hwfs : (store0.map Prod.fst).Nodup)
    (hndf : (files.map Prod.fst).Nodup)
    (hInv : storeManifestInv store0 manifest)
    (hfresh : freshIds extract store0 files)
    (herr : (index hash extract store0 manifest files).stats.errors = 0)
    (hsv : 0 < (index hash extract store0 manifest files).stats.blocks ∨
        (index hash extract store0 manifest files).stats.files = 0) :
    storeManifestInv (index hash extract store0 manifest files).store
      (index hash extract store0 manifest files).manifest := by
  have hstats := index_stats_eq hash extract store0 manifest files hndf
  have herrall : ∀ pc ∈ files, ¬ errsF hash extract manifest pc = true := by
    have h0 : files.countP (errsF hash extract manifest) = 0 := by
      rw [hstats] at herr
      exact herr
    exact List.countP_eq_zero.mp h0
  rcases hsv with hbl | hfi
  · -- at least one block staged: the manifest was saved
    have hstagedne : allStagedOf hash extract manifest files ≠ [] := by
      intro hc
      rw [hstats, hc] at hbl
      simp at hbl
    have hwfr := nodup_keys_index_store hash extract store0 manifest files hndf hwfs
    intro q x
    rw [mem_vectorsOf_iff hwfr]
    have hBq : blocksOf (index hash extract store0 manifest files).manifest q =
        (match lookupKey q (updListOf hash extract manifest files) with
         | some e => e.blocks
         | none => blocksOf manifest q) := by
      unfold blocksOf
      rw [lookupKey_index_manifest hash extract store0 manifest files hndf
          hstagedne q]
      cases lookupKey q (updListOf hash extract manifest files) <;> rfl
    rw [hBq]
    by_cases hact : ∃ pc ∈ files, pc.1 = q ∧ ¬ skipF hash manifest pc = true
    · -- q is a re-indexed input file
      obtain ⟨pc, hpc, hpcq, hpcns⟩ := hact
      obtain ⟨bs, hex⟩ := succ_of_not_errs (herrall pc hpc) hpcns
      have hbsget : (extract pc.1 pc.2).getD [] = bs := by rw [hex]; rfl
      have hL : lookupKey q (updListOf hash extract manifest files) =
          some ⟨hash pc.2, (stageFile hash pc.1 pc.2 bs).map Staged.id⟩ := by
        have h1 := @lookupKey_updListOf hash extract manifest files hndf pc hpc
        rw [updF_of_succ hpcns hex] at h1
        rw [← hpcq, h1]
        rfl
      rw [hL]
      constructor
      · rintro ⟨m, hlm, hfm⟩
        rw [lookupKey_index_store hash extract store0 manifest files hndf x] at hlm
        cases hf : findStaged (allStagedOf hash extract manifest files) x with
        | some st =>
          rw [hf] at hlm
          have hm : m = metaOf st := (Option.some.inj hlm).symm
          obtain ⟨hstS, hstid⟩ := findStaged_some hf
          obtain ⟨pc', hpc', hstf⟩ := mem_allStagedOf.mp hstS
          obtain ⟨hfile', hblk', hid', hskip'⟩ := stagedF_mem_spec hstf
          have hk' : pc'.1 = q := by
            rw [← hfile']
            rw [hm] at hfm
            exact hfm
          have hpcpc : pc' = pc := pair_unique hndf hpc' hpc (by rw [hk', hpcq])
          rw [hpcpc] at hstf
          rw [stagedF_of_succ hpcns hex] at hstf
          show x ∈ (stageFile hash pc.1 pc.2 bs).map Staged.id
          exact List.mem_map.mpr ⟨st, hstf, hstid⟩
        | none =>
          rw [hf] at hlm
          by_cases hio : x ∈ allOldOf hash manifest files
          · rw [if_pos hio] at hlm
            exact absurd hlm (by simp)
          · rw [if_neg hio] at hlm
            exfalso
            have hxv : x ∈ vectorsOf store0 q :=
              (mem_vectorsOf_iff hwfs).mpr ⟨m, hlm, hfm⟩
            have hxb : x ∈ blocksOf manifest q := (hInv q x).mp hxv
            apply hio
            refine mem_allOldOf.mpr ⟨pc, hpc, ?_⟩
            rw [delListOf_of_stale hpcns, hpcq]
            exact hxb
      · intro hxid
        obtain ⟨st, hstmem, hstid⟩ := List.mem_map.mp hxid
        have hstS : st ∈ allStagedOf hash extract manifest files :=
          mem_allStagedOf.mpr ⟨pc, hpc, by
            rw [stagedF_of_succ hpcns hex]
            exact hstmem⟩
        obtain ⟨st', hf⟩ := findStaged_isSome_of_mem hstS hstid
        obtain ⟨hst'S, hst'id⟩ := findStaged_some hf
        obtain ⟨pc'', hpc'', hstf''⟩ := mem_allStagedOf.mp hst'S
        obtain ⟨hfile'', hblk'', hid'', hskip''⟩ := stagedF_mem_spec hstf''
        obtain ⟨b, hb, rfl⟩ := mem_stageFile.mp hstmem
        have hk'' : pc''.1 = pc.1 := by
          by_contra hne
          have hdiff := (hfresh pc hpc b (by rw [hbsget]; exact hb)).2
            pc'' hpc'' hne st'.block hblk''
          apply hdiff
          rw [← hid'']
          rw [hst'id]
          exact hstid
        rw [lookupKey_index_store hash extract store0 manifest files hndf x, hf]
        refine ⟨metaOf st', rfl, ?_⟩
        show st'.file = q
        rw [hfile'', hk'', hpcq]
    · -- no stale input file has key q: q's vectors and entry are untouched
      push_neg at hact
      have hq : ∀ pc ∈ files, pc.1 = q → skipF hash manifest pc = true := by
        intro pc hpc hk
        have h1 := hact pc hpc hk
        simpa using h1
      have hL : lookupKey q (updListOf hash extract manifest files) = none := by
        rw [lookupKey_eq_none]
        intro hc
        obtain ⟨v, hv⟩ := lookupKey_isSome_of_mem_keys hc
        obtain ⟨pc', hpc', hupd⟩ := mem_updListOf.mp (mem_of_lookupKey hv)
        have hk : q = pc'.1 := updF_key hupd
        have hskip' := hq pc' hpc' hk.symm
        rw [updF_of_skip hskip'] at hupd
        exact Option.noConfusion hupd
      rw [hL]
      show (∃ m, _ ∧ _) ↔ x ∈ blocksOf manifest q
      constructor
      · rintro ⟨m, hlm, hfm⟩
        rw [lookupKey_index_store hash extract store0 manifest files hndf x] at hlm
        cases hf : findStaged (allStagedOf hash extract manifest files) x with
        | some st =>
          rw [hf] at hlm
          have hm : m = metaOf st := (Option.some.inj hlm).symm
          obtain ⟨hstS, hstid⟩ := findStaged_some hf
          obtain ⟨pc', hpc', hstf⟩ := mem_allStagedOf.mp hstS
          obtain ⟨hfile', hblk', hid', hskip'⟩ := stagedF_mem_spec hstf
          have hk' : pc'.1 = q := by
            rw [← hfile']
            rw [hm] at hfm
            exact hfm
          rw [hq pc' hpc' hk'] at hskip'
          exact absurd hskip' (by simp)
        | none =>
          rw [hf] at hlm
          by_cases hio : x ∈ allOldOf hash manifest files
          · rw [if_pos hio] at hlm
            exact absurd hlm (by simp)
          · rw [if_neg hio] at hlm
            exact (hInv q x).mp ((mem_vectorsOf_iff hwfs).mpr ⟨m, hlm, hfm⟩)
      · intro hxb
        have hxv : x ∈ vectorsOf store0 q := (hInv q x).mpr hxb
        obtain ⟨m, hlm0, hfm⟩ := (mem_vectorsOf_iff hwfs).mp hxv
        refine ⟨m, ?_, hfm⟩
        rw [lookupKey_index_store hash extract store0 manifest files hndf x]
        have hfnone : findStaged (allStagedOf hash extract manifest files) x
            = none := by
          rw [findStaged_eq_none]
          intro st hst hc
          obtain ⟨pc', hpc', hstf⟩ := mem_allStagedOf.mp hst
          obtain ⟨hfile', hblk', hid', hskip'⟩ := stagedF_mem_spec hstf
          by_cases hk : pc'.1 = q
          · rw [hq pc' hpc' hk] at hskip'
            exact absurd hskip' (by simp)
          · have hdiff := (hfresh pc' hpc' st.block hblk').1 (x, m)
              (mem_of_lookupKey hlm0)
              (show m.file ≠ pc'.1 from by
                rw [hfm]
                exact fun hc2 => hk hc2.symm)
            apply hdiff
            rw [← hid', hc]
        rw [hfnone]
        have hxnotO : x ∉ allOldOf hash manifest files := by
          intro hcO
          obtain ⟨pc'', hpc'', hdel⟩ := mem_allOldOf.mp hcO
          by_cases hsk : skipF hash manifest pc'' = true
          · rw [delListOf_of_skip hsk] at hdel
            exact absurd hdel (List.not_mem_nil x)
          · rw [delListOf_of_stale hsk] at hdel
            have hxv'' : x ∈ vectorsOf store0 pc''.1 := (hInv pc''.1 x).mpr hdel
            have hkq : pc''.1 = q := vectors_disjoint hwfs hxv'' hxv
            exact hsk (hq pc'' hpc'' hkq)
        rw [if_neg hxnotO]
        exact hlm0
  · -- nothing was stale: the call was a complete no-op
    have hsucc0 : files.countP (succF hash extract manifest) = 0 := by
      rw [hstats] at hfi
      exact hfi
    have hsuccall := List.countP_eq_zero.mp hsucc0
    have hallskip : ∀ pc ∈ files, skipF hash manifest pc = true := fun pc hpc =>
      skip_of_not_errs_not_succ (herrall pc hpc) (hsuccall pc hpc)
    have hstaged : allStagedOf hash extract manifest files = [] := by
      unfold allStagedOf
      rw [List.flatMap_eq_nil_iff]
      exact fun pc hpc => stagedF_of_skip (hallskip pc hpc)
    have hold0 : allOldOf hash manifest files = [] := by
      unfold allOldOf
      rw [List.flatMap_eq_nil_iff]
      exact fun pc hpc => delListOf_of_skip (hallskip pc hpc)
    rw [index_eq hash extract store0 manifest files hndf, if_pos hstaged]
    show storeManifestInv (deleteIds store0 (allOldOf hash manifest files)) manifest
    rw [hold0, deleteIds_nil]
    exact hInv

/-- `update` on a stale input, written out: deletion pass, then `index`
over the changed sub-dict, deletion counts merged. -/
theorem update_eq_of_stale (hash : String → String)
    (extract : String → String → Option (List Block))
    (store0 : Store) (manifest : Manifest) (files : List (String × String))
    (hcond : ¬ ((get_stale_files hash manifest files).1 = [] ∧
        (get_stale_files hash manifest files).2 = [])) :
    update hash extract store0 manifest files =
      { index hash extract
          ((get_stale_files hash manifest files).2.foldl deleteOne
            (store0, manifest.files, 0)).1
          ⟨((get_stale_files hash manifest files).2.foldl deleteOne
            (store0, manifest.files, 0)).2.1⟩
          ((get_stale_files hash manifest files).1.filterMap (fun f =>
            (lookupKey f files).map (fun c => (f, c)))) with
        stats := { (index hash extract
            ((get_stale_files hash manifest files).2.foldl deleteOne
              (store0, manifest.files, 0)).1
            ⟨((get_stale_files hash manifest files).2.foldl deleteOne
              (store0, manifest.files, 0)).2.1⟩
            ((get_stale_files hash manifest files).1.filterMap (fun f =>
              (lookupKey f files).map (fun c => (f, c))))).stats with
          deleted := (index hash extract
              ((get_stale_files hash manifest files).2.foldl deleteOne
                (store0, manifest.files, 0)).1
              ⟨((get_stale_files hash manifest files).2.foldl deleteOne
                (store0, manifest.files, 0)).2.1⟩
              ((get_stale_files hash manifest files).1.filterMap (fun f =>
                (lookupKey f files).map (fun c => (f, c))))).stats.deleted +
            ((get_stale_files hash manifest files).2.foldl deleteOne
              (store0, manifest.files, 0)).2.2 } } := by
  unfold update
  rw [if_neg hcond]

/-- Preservation of the manifest/store consistency invariant by one
errorless `update` call that either saved a manifest with staged blocks or
re-indexed nothing. -/
theorem update_preserves_inv (hash : String → String)
    (extract : String → String → Option (List Block))
    (store0 : Store) (manifest : Manifest) (files : List (String × String))
    (hwfs : (store0.map Prod.fst).Nodup)
    (hndm : (manifest.files.map Prod.fst).Nodup)
    (hndf : (files.map Prod.fst).Nodup)
    (hInv : storeManifestInv store0 manifest)
    (hfresh : freshIds extract store0 files)
    (herr : (update hash extract store0 manifest files).stats.errors = 0)
    (hsv : 0 < (update hash extract store0 manifest files).stats.blocks ∨
        (update hash extract store0 manifest files).stats.files = 0) :
    storeManifestInv (update hash extract store0 manifest files).store
      (update hash extract store0 manifest files).manifest := by
  by_cases hcond : (get_stale_files hash manifest files).1 = [] ∧
      (get_stale_files hash manifest files).2 = []
  · unfold update
    rw [if_pos hcond]
    exact hInv
  · have hcomp := update_eq_of_stale hash extract store0 manifest files hcond
    rw [hcomp] at herr hsv ⊢
    have hsfold := deleteOne_fold_store (get_stale_files hash manifest files).2
      store0 manifest.files 0 (nodup_deleted hndm)
    have hmfold := deleteOne_fold_manifest (get_stale_files hash manifest files).2
      store0 manifest.files 0
    have hwfs1 : ((((get_stale_files hash manifest files).2.foldl deleteOne
        (store0, manifest.files, 0)).1).map Prod.fst).Nodup := by
      rw [hsfold]
      exact nodup_keys_deleteIds _ hwfs
    have hndf1 : ((((get_stale_files hash manifest files).1.filterMap (fun f =>
        (lookupKey f files).map (fun c => (f, c)))).map Prod.fst)).Nodup :=
      (nodup_keys_changed hndf).sublist (keys_changedFiles_sublist files _)
    have hInv1 : storeManifestInv
        ((get_stale_files hash manifest files).2.foldl deleteOne
          (store0, manifest.files, 0)).1
        ⟨((get_stale_files hash manifest files).2.foldl deleteOne
          (store0, manifest.files, 0)).2.1⟩ := by
      intro q x
      rw [mem_vectorsOf_iff hwfs1]
      have hB1 : blocksOf (Manifest.mk
          ((get_stale_files hash manifest files).2.foldl deleteOne
            (store0, manifest.files, 0)).2.1) q =
          (if q ∈ (get_stale_files hash manifest files).2 then []
           else blocksOf manifest q) := by
        unfold blocksOf
        rw [show lookupKey q (Manifest.mk
            ((get_stale_files hash manifest files).2.foldl deleteOne
              (store0, manifest.files, 0)).2.1).files =
            (if q ∈ (get_stale_files hash manifest files).2 then none
             else lookupKey q manifest.files) from hmfold q]
        by_cases hq : q ∈ (get_stale_files hash manifest files).2 <;> simp [hq]
      rw [hB1]
      have hmemF : ∀ y, y ∈ (get_stale_files hash manifest files).2.flatMap
          (fun f => ((lookupKey f manifest.files).map FileEntry.blocks).getD []) ↔
          ∃ f ∈ (get_stale_files hash manifest files).2, y ∈ blocksOf manifest f := by
        intro y
        rw [List.mem_flatMap]
        rfl
      by_cases hq : q ∈ (get_stale_files hash manifest files).2
      · rw [if_pos hq]
        constructor
        · rintro ⟨m, hlm, hfm⟩
          rw [hsfold, lookupKey_deleteIds] at hlm
          by_cases hxF : x ∈ (get_stale_files hash manifest files).2.flatMap
              (fun f => ((lookupKey f manifest.files).map FileEntry.blocks).getD [])
          · rw [if_pos hxF] at hlm
            exact absurd hlm (by simp)
          · rw [if_neg hxF] at hlm
            exfalso
            apply hxF
            rw [hmemF]
            refine ⟨q, hq, ?_⟩
            exact (hInv q x).mp ((mem_vectorsOf_iff hwfs).mpr ⟨m, hlm, hfm⟩)
        · intro hc
          exact absurd hc (List.not_mem_nil x)
      · rw [if_neg hq]
        constructor
        · rintro ⟨m, hlm, hfm⟩
          rw [hsfold, lookupKey_deleteIds] at hlm
          by_cases hxF : x ∈ (get_stale_files hash manifest files).2.flatMap
              (fun f => ((lookupKey f manifest.files).map FileEntry.blocks).getD [])
          · rw [if_pos hxF] at hlm
            exact absurd hlm (by simp)
          · rw [if_neg hxF] at hlm
            exact (hInv q x).mp ((mem_vectorsOf_iff hwfs).mpr ⟨m, hlm, hfm⟩)
        · intro hxb
          have hxv : x ∈ vectorsOf store0 q := (hInv q x).mpr hxb
          obtain ⟨m, hlm0, hfm⟩ := (mem_vectorsOf_iff hwfs).mp hxv
          refine ⟨m, ?_, hfm⟩
          rw [hsfold, lookupKey_deleteIds]
          have hxF : x ∉ (get_stale_files hash manifest files).2.flatMap
              (fun f => ((lookupKey f manifest.files).map FileEntry.blocks).getD []) := by
            intro hc
            obtain ⟨f, hf, hxf⟩ := (hmemF x).mp hc
            have hxvf : x ∈ vectorsOf store0 f := (hInv f x).mpr hxf
            have : f = q := vectors_disjoint hwfs hxvf hxv
            exact hq (this ▸ hf)
          rw [if_neg hxF]
          exact hlm0
    have hfresh1 : freshIds extract
        ((get_stale_files hash manifest files).2.foldl deleteOne
          (store0, manifest.files, 0)).1
        ((get_stale_files hash manifest files).1.filterMap (fun f =>
          (lookupKey f files).map (fun c => (f, c)))) := by
      intro pc hpc b hb
      have hpcf : pc ∈ files := (mem_changedFiles hpc).1
      constructor
      · intro item hitem hne
        have hitem0 : item ∈ store0 := by
          rw [hsfold] at hitem
          exact (mem_deleteIds.mp hitem).1
        exact (hfresh pc hpcf b hb).1 item hitem0 hne
      · intro pc' hpc' hne b' hb'
        exact (hfresh pc hpcf b hb).2 pc' ((mem_changedFiles hpc').1) hne b' hb'
    exact index_preserves_inv hash extract _ _ _ hwfs1 hndf1 hInv1 hfresh1
      herr hsv

/-! ## Claim C1: the manifest/store consistency invariant -/

/-- C1 counterexample. A call that returns with `errors > 0` can break the
invariant: starting from a consistent state (one indexed file with one
stored vector), re-indexing the changed file with a failing extractor
deletes the old vector, leaves the manifest entry in place, and returns
`errors = 1` — so the entry's `block_ids` list still names an id that is
no longer in the store. -/
theorem manifest_store_invariant_counterexample :
    (index idHash extractNone [("a:1:f", metaFa)]
        ⟨[("a", ⟨"h0", ["a:1:f"]⟩)]⟩ [("a", "c")]).stats.errors = 1 ∧
    lookupKey "a" (index idHash extractNone [("a:1:f", metaFa)]
        ⟨[("a", ⟨"h0", ["a:1:f"]⟩)]⟩ [("a", "c")]).manifest.files
      = some ⟨"h0", ["a:1:f"]⟩ ∧
    "a:1:f" ∈ (FileEntry.mk "h0" ["a:1:f"]).blocks ∧
    "a:1:f" ∉ vectorsOf (index idHash extractNone [("a:1:f", metaFa)]
        ⟨[("a", ⟨"h0", ["a:1:f"]⟩)]⟩ [("a", "c")]).store "a" := by
  decide

/-- C1 amended. The invariant — every manifest entry's `block_ids` is
exactly the set of store ids originating from its path — is preserved by
an `index` or `update` call provided it reports `errors = 0` and either
embedded at least one block (so the manifest was saved) or found nothing
stale; it held beforehand; and newly derived block ids are fresh (the
spec's id-uniqueness assumption). With `errors > 0`, or when a stale
zero-block file suppresses the manifest save, the invariant can break. -/
theorem manifest_store_invariant_amended (hash : String → String)
    (extract : String → String → Option (List Block))
    (store0 : Store) (manifest : Manifest) (files : List (String × String))
    (hwfs : (store0.map Prod.fst).Nodup)
    (hndm : (manifest.files.map Prod.fst).Nodup)
    (hndf : (files.map Prod.fst).Nodup)
    (hInv : storeManifestInv store0 manifest)
    (hfresh : freshIds extract store0 files) :
    ((index hash extract store0 manifest files).stats.errors = 0 →
      (0 < (index hash extract store0 manifest files).stats.blocks ∨
        (index hash extract store0 manifest files).stats.files = 0) →
      ∀ p e, lookupKey p (index hash extract store0 manifest files).manifest.files
          = some e →
        ∀ x, x ∈ e.blocks ↔
          x ∈ vectorsOf (index hash extract store0 manifest files).store p) ∧
    ((update hash extract store0 manifest files).stats.errors = 0 →
      (0 < (update hash extract store0 manifest files).stats.blocks ∨
        (update hash extract store0 manifest files).stats.files = 0) →
      ∀ p e, lookupKey p (update hash extract store0 manifest files).manifest.files
          = some e →
        ∀ x, x ∈ e.blocks ↔
          x ∈ vectorsOf (update hash extract store0 manifest files).store p) := by
  constructor
  · intro herr hsv p e hpe x
    have h := index_preserves_inv hash extract store0 manifest files hwfs hndf
      hInv hfresh herr hsv p x
    have hbe : blocksOf (index hash extract store0 manifest files).manifest p
        = e.blocks := by
      unfold blocksOf
      rw [hpe]
      rfl
    rw [hbe] at h
    exact h.symm
  · intro herr hsv p e hpe x
    have h := update_preserves_inv hash extract store0 manifest files hwfs hndm
      hndf hInv hfresh herr hsv p x
    have hbe : blocksOf (update hash extract store0 manifest files).manifest p
        = e.blocks := by
      unfold blocksOf
      rw [hpe]
      rfl
    rw [hbe] at h
    exact h.symm

/-- C1 witness for the amended invariant: a consistent one-file state,
then an errorless `index` call adding a second file; the new entry's id
list matches the store. -/
theorem manifest_store_invariant_amended_witness :
    ("a:1:f" ∈ (FileEntry.mk (idHash "c")
        ((stageFile idHash "a" "c" [blockF]).map Staged.id)).blocks ↔
      "a:1:f" ∈ vectorsOf (index idHash extractOneF [("b:5:g", metaGb)]
        ⟨[("b", ⟨"h0", ["b:5:g"]⟩)]⟩ [("a", "c")]).store "a") :=
  (manifest_store_invariant_amended idHash extractOneF [("b:5:g", metaGb)]
      ⟨[("b", ⟨"h0", ["b:5:g"]⟩)]⟩ [("a", "c")]
      (by decide) (by decide) (by decide)
      (by
        intro p x
        by_cases hp : "b" = p
        · rw [← hp]
          simp [vectorsOf, blocksOf, lookupKey, metaGb]
        · simp [vectorsOf, blocksOf, lookupKey, metaGb, hp])
      (by decide)).1
    (by decide) (Or.inl (by decide)) "a"
    ⟨idHash "c", (stageFile idHash "a" "c" [blockF]).map Staged.id⟩
    (by decide) "a:1:f"

end Hygrep
